import Mathlib

/-!
# Randomized adventure game: room generator and game runner

A shallow embedding of `buildrooms.c` (the generator) and `adventure.c` (the game
runner), followed by theorems about the generated graph, the room file format, the choice
of the rooms directory and the game loop.

Modelling conventions.

* `rand()` is a list of draws (`List Nat`) consumed from the head, each draw one
  return value of `rand()`.  A function that needs more draws than the list
  holds returns `none`: the rejection loops of `AddRandomConnection` have no
  bound in the source, so `none` stands for "the call has not returned on
  these draws".
* `struct Room rooms[NUM_OF_ROOMS]` is a map `Fin NUM_OF_ROOMS → Room`, and
  `char connections[MAX_CONNECTIONS][MAX_CHARS+1]` is a map
  `Fin MAX_CONNECTIONS → String`.  Both arrays live on the stack of `main` and
  are not initialised there, so the functions take the previous contents as an
  argument.
* `numConnections` is an `int` that starts at `0` and is only ever incremented
  by one, at most `MAX_CONNECTIONS` times; it is a `Nat` here.
* The game is one thread of control: the threads that run `WriteTime` wait on the mutex
  until `main` unlocks it and joins them, so the state of the game holds the mutex and the
  number of waiting threads, and the join is the point where the thread has run.  What the
  program prints is given by functions of their own (`DisplayRoom`, `DisplayTime`,
  `finalReport`), not kept in the state.
-/

namespace BuildRooms

/-! ## Constants and data model (`buildrooms.c`, lines 39-73) -/

/-- Number of rooms that will be created. -/
abbrev NUM_OF_ROOMS : Nat := 7

/-- Total number of room names. -/
abbrev NUM_OF_NAMES : Nat := 10

/-- Maximum number of connections a room can have. -/
abbrev MAX_CONNECTIONS : Nat := 6

/-- Maximum number of characters for each name. -/
abbrev MAX_CHARS : Nat := 8

/-- The room type enum `enum Types { START_ROOM, MID_ROOM, END_ROOM }`. -/
inductive Types where
  | START_ROOM
  | MID_ROOM
  | END_ROOM
  deriving DecidableEq, Repr

/-- The string table `types[]`, indexed by the enum. -/
def types : Types → String
  | .START_ROOM => "START_ROOM"
  | .MID_ROOM => "MID_ROOM"
  | .END_ROOM => "END_ROOM"

/-- The room struct. -/
structure Room where
  name : String
  type : Types
  numConnections : Nat
  connections : Fin MAX_CONNECTIONS → String

/-- The array `struct Room rooms[NUM_OF_ROOMS]`. -/
abbrev Rooms := Fin NUM_OF_ROOMS → Room

/-- The name pool `names[]`. -/
def names : List String :=
  ["Basement", "Attic", "Ballroom", "Dining", "Kitchen", "Library", "Bathroom", "Bedroom",
   "Trophy", "Study"]

/-- The entries `connections[0 .. numConnections-1]` of a room, in stored order: the part of
the array that the loops `for (i = 0; i < numConnections; i++)` of the source read.  The array
has `MAX_CONNECTIONS` slots, and a read past its end is not modelled. -/
def Room.conns (r : Room) : List String :=
  (List.ofFn r.connections).take r.numConnections

/-- The two statements `strcpy(room->connections[room->numConnections], s);
room->numConnections++;`.  The array has `MAX_CONNECTIONS` slots; a store past its end
is not modelled (the slot map is left as it was). -/
def Room.addConnection (r : Room) (s : String) : Room :=
  { r with
    connections :=
      if h : r.numConnections < MAX_CONNECTIONS then
        Function.update r.connections ⟨r.numConnections, h⟩ s
      else r.connections
    numConnections := r.numConnections + 1 }

/-! ## The generator (`buildrooms.c`, lines 135-287) -/

/-- One pass of the body of the loop of `Shuffle` for the index `i`:
`j = rand() % i; tmp = arr[i]; arr[i] = arr[j]; arr[j] = tmp;`. -/
def Shuffle.swapStep (arr : List Int) (i : Nat) (r : Nat) : List Int :=
  let j := r % i
  let tmp := arr.getD i 0
  (arr.set i (arr.getD j 0)).set j tmp

/-- The loop `for (i = n-1; i > 0; i--)` of `Shuffle`, entered with `i = k`. -/
def Shuffle.loop (arr : List Int) : Nat → List Nat → Option (List Int × List Nat)
  | 0, draws => some (arr, draws)
  | _ + 1, [] => none
  | i + 1, r :: draws => Shuffle.loop (Shuffle.swapStep arr (i + 1) r) i draws

/-- The function `void Shuffle(int arr[], int n)`. -/
def Shuffle (arr : List Int) (n : Nat) (draws : List Nat) : Option (List Int × List Nat) :=
  Shuffle.loop arr (n - 1) draws

/-- The function `void InitRooms(struct Room rooms[])` of the generator. -/
def InitRooms (rooms : Rooms) (draws : List Nat) : Option (Rooms × List Nat) :=
  match Shuffle [0, 1, 2, 3, 4, 5, 6, 7, 8, 9] NUM_OF_NAMES draws with
  | none => none
  | some (indexes, rest) =>
    let rooms1 : Rooms := fun i =>
      { rooms i with
        name := names.getD (indexes.getD i.val 0).toNat ""
        numConnections := 0
        type := Types.MID_ROOM }
    let rooms2 : Rooms := Function.update rooms1 0 { rooms1 0 with type := Types.START_ROOM }
    let rooms3 : Rooms := Function.update rooms2 6 { rooms2 6 with type := Types.END_ROOM }
    some (rooms3, rest)

/-- The function `bool IsGraphFull(struct Room rooms[])`. -/
def IsGraphFull (rooms : Rooms) : Bool :=
  (List.finRange NUM_OF_ROOMS).all fun i => !decide ((rooms i).numConnections < 3)

/-- The function `bool ConnectionAlreadyExists(struct Room* roomA, struct Room* roomB)`. -/
def ConnectionAlreadyExists (roomA roomB : Room) : Bool :=
  roomA.conns.any fun c => c == roomB.name

/-- The index `rand() % NUM_OF_ROOMS`. -/
def randomIndex (r : Nat) : Fin NUM_OF_ROOMS :=
  ⟨r % NUM_OF_ROOMS, Nat.mod_lt _ (by decide)⟩

/-- The loop `while (1)` of `AddRandomConnection`, which draws `indexA` until the room drawn
has fewer than 6 connections. -/
def AddRandomConnection.selectA (rooms : Rooms) : List Nat → Option (Fin NUM_OF_ROOMS × List Nat)
  | [] => none
  | r :: draws =>
    let indexA := randomIndex r
    if (rooms indexA).numConnections < 6 then some (indexA, draws)
    else AddRandomConnection.selectA rooms draws

/-- The loop `do ... while` of `AddRandomConnection`, which draws `indexB` again while
`roomB->numConnections >= 6 || indexA == indexB || ConnectionAlreadyExists(roomA, roomB)`. -/
def AddRandomConnection.selectB (rooms : Rooms) (indexA : Fin NUM_OF_ROOMS) :
    List Nat → Option (Fin NUM_OF_ROOMS × List Nat)
  | [] => none
  | r :: draws =>
    let indexB := randomIndex r
    if (rooms indexB).numConnections ≥ 6 ∨ indexA = indexB
        ∨ ConnectionAlreadyExists (rooms indexA) (rooms indexB) = true then
      AddRandomConnection.selectB rooms indexA draws
    else some (indexB, draws)

/-- The last four statements of `AddRandomConnection`: store B's name in A and count it,
then store A's name in B and count it. -/
def AddRandomConnection.connect (rooms : Rooms) (indexA indexB : Fin NUM_OF_ROOMS) : Rooms :=
  let rooms1 := Function.update rooms indexA ((rooms indexA).addConnection (rooms indexB).name)
  Function.update rooms1 indexB ((rooms1 indexB).addConnection (rooms1 indexA).name)

/-- The function `void AddRandomConnection(struct Room rooms[])`. -/
def AddRandomConnection (rooms : Rooms) (draws : List Nat) : Option (Rooms × List Nat) :=
  match AddRandomConnection.selectA rooms draws with
  | none => none
  | some (indexA, draws1) =>
    match AddRandomConnection.selectB rooms indexA draws1 with
    | none => none
    | some (indexB, draws2) => some (AddRandomConnection.connect rooms indexA indexB, draws2)

/-- A number `k` of calls of `AddRandomConnection`, one after the other. -/
def addConnections : Nat → Rooms → List Nat → Option (Rooms × List Nat)
  | 0, rooms, draws => some (rooms, draws)
  | k + 1, rooms, draws =>
    match AddRandomConnection rooms draws with
    | none => none
    | some (rooms1, draws1) => addConnections k rooms1 draws1

/-- The call `InitRooms(rooms)` followed by `k` calls `AddRandomConnection(rooms)`: the states
that `main` goes through are those of shape `runCalls mem k draws`. -/
def runCalls (mem : Rooms) (k : Nat) (draws : List Nat) : Option (Rooms × List Nat) :=
  match InitRooms mem draws with
  | none => none
  | some (rooms, rest) => addConnections k rooms rest

/-- The loop `while (IsGraphFull(rooms) == false) AddRandomConnection(rooms);` of `main`, run
for at most `fuel` calls; the result also counts the calls made. -/
def mainLoop : Nat → Rooms → List Nat → Option (Rooms × Nat)
  | fuel, rooms, draws =>
    if IsGraphFull rooms = true then some (rooms, 0)
    else
      match fuel with
      | 0 => none
      | fuel + 1 =>
        match AddRandomConnection rooms draws with
        | none => none
        | some (rooms1, draws1) =>
          match mainLoop fuel rooms1 draws1 with
          | none => none
          | some (rooms2, calls) => some (rooms2, calls + 1)

/-- The properties of the graph that every call of `AddRandomConnection` keeps: the rooms
have distinct names, no room holds more than `MAX_CONNECTIONS` connections, no stored list
repeats a name, every stored name is the name of another room, and every stored connection
is stored in both directions. -/
structure GraphInv (rooms : Rooms) : Prop where
  names_inj : ∀ a b : Fin NUM_OF_ROOMS, (rooms a).name = (rooms b).name → a = b
  count_le : ∀ a : Fin NUM_OF_ROOMS, (rooms a).numConnections ≤ MAX_CONNECTIONS
  nodup : ∀ a : Fin NUM_OF_ROOMS, (rooms a).conns.Nodup
  target : ∀ (a : Fin NUM_OF_ROOMS) (s : String), s ∈ (rooms a).conns →
    ∃ b : Fin NUM_OF_ROOMS, b ≠ a ∧ (rooms b).name = s
  symm : ∀ a b : Fin NUM_OF_ROOMS, (rooms b).name ∈ (rooms a).conns →
    (rooms a).name ∈ (rooms b).conns

/-- The rooms whose name is among the connections of room `a`. -/
def neighbours (rooms : Rooms) (a : Fin NUM_OF_ROOMS) : Finset (Fin NUM_OF_ROOMS) :=
  Finset.univ.filter fun b => (rooms b).name ∈ (rooms a).conns

/-- The number of stored connections, all rooms together. -/
def totalConnections (rooms : Rooms) : Nat :=
  ∑ i : Fin NUM_OF_ROOMS, (rooms i).numConnections

/-- Room `j` is reached from room `i` by following stored connections: zero or more moves,
each to a room whose name is among the connections of the room one stands in. -/
inductive Reachable (rooms : Rooms) (i : Fin NUM_OF_ROOMS) : Fin NUM_OF_ROOMS → Prop where
  | here : Reachable rooms i i
  | move (j k : Fin NUM_OF_ROOMS) : Reachable rooms i j → (rooms k).name ∈ (rooms j).conns →
      Reachable rooms i k

/-! ## Writing a room file (`buildrooms.c`, lines 176-224) -/

/-- General purpose buffer size for string handling. -/
abbrev STR_BUFFER : Nat := 100

/-- The text that `snprintf(fileLine, sizeof(fileLine), ...)` leaves in the buffer of
`STR_BUFFER` bytes: the formatted text, cut after `STR_BUFFER - 1` characters. -/
def snprintf (text : String) : String :=
  String.mk (text.data.take (STR_BUFFER - 1))

/-- The loop `for (i = 1; i <= room->numConnections; i++)` of `MakeRoomFile`, entered with
the counter `i` and the entries `connections[i-1 ..]` still to write: each pass writes the
line `"CONNECTION %d: %s\n"`. -/
def MakeRoomFile.connectionLines : Nat → List String → String
  | _, [] => ""
  | i, c :: cs =>
    snprintf ("CONNECTION " ++ toString i ++ ": " ++ c ++ "\n")
      ++ MakeRoomFile.connectionLines (i + 1) cs

/-- The function `void MakeRoomFile(struct Room* room, char* dir)`: the text it writes to the
file it creates (the name of the file and the failure of `fopen` are left out). -/
def MakeRoomFile (room : Room) : String :=
  snprintf ("ROOM NAME: " ++ room.name ++ "\n")
    ++ MakeRoomFile.connectionLines 1 room.conns
    ++ snprintf ("ROOM TYPE: " ++ types room.type ++ "\n")

/-- A block of memory for `rooms` before `InitRooms` has run. -/
def blankRooms : Rooms := fun _ =>
  { name := "", type := Types.MID_ROOM, numConnections := 0, connections := fun _ => "" }

/-- A sequence of draws on which the generator finishes: nine draws for `Shuffle`, then two
draws for each of twelve calls of `AddRandomConnection`. -/
def sampleDraws : List Nat :=
  [3, 1, 4, 1, 5, 9, 2, 6, 5, 0, 1, 0, 2, 0, 3, 1, 2, 1, 3, 2, 3, 4, 5, 4, 6, 5, 6, 4, 0, 5, 1,
   6, 2]

/-- The rooms that `InitRooms` sets up from `sampleDraws`. -/
def sampleStart : Rooms :=
  match InitRooms blankRooms sampleDraws with
  | some (rooms, _) => rooms
  | none => blankRooms

/-- The graph that the generator builds from `sampleDraws`. -/
def sampleGraph : Rooms :=
  match runCalls blankRooms 12 sampleDraws with
  | some (rooms, _) => rooms
  | none => blankRooms

end BuildRooms

namespace Adventure

open BuildRooms

/-! ## Reading a room file (`adventure.c`, lines 280-345)

`adventure.c` declares the same constants, the same enum with the same string table and the
same room struct as `buildrooms.c`; they are shared here.  A file is the list of its
characters, and reading moves along that list. -/

/-- The call `fgets(fileLine, size, file)` on a buffer filled with `'\0'`: it reads at most
`size - 1` characters (here `n`), and stops after a newline, which it keeps.  The result is
the text read and what is left of the file; at the end of the file the text is empty. -/
def fgets : Nat → List Char → List Char × List Char
  | 0, file => ([], file)
  | _ + 1, [] => ([], [])
  | n + 1, c :: file =>
    if c = '\n' then ([c], file)
    else
      match fgets n file with
      | (text, rest) => (c :: text, rest)

/-- The statement `fileLine[strcspn(fileLine, "\n")] = '\0'`: the text before the first
newline. -/
def stripNewline (fileLine : List Char) : List Char :=
  fileLine.takeWhile fun c => c ≠ '\n'

/-- The three statements `memset(fileLine, '\0', STR_BUFFER); fgets(fileLine,
sizeof(fileLine), file); fileLine[strcspn(fileLine, "\n")] = '\0';`. -/
def readLine (file : List Char) : List Char × List Char :=
  match fgets (STR_BUFFER - 1) file with
  | (fileLine, rest) => (stripNewline fileLine, rest)

/-- The expression `strrchr(fileLine, ' ') + 1`: the text after the last space.  When the
line has no space `strrchr` returns `NULL`, and the result is `none`. -/
def lastWord : List Char → Option (List Char)
  | [] => none
  | c :: fileLine =>
    match lastWord fileLine with
    | some word => some word
    | none => if c = ' ' then some fileLine else none

/-- The loop `while (fileLine[0] == 'C')` of `InitRooms`, entered with the line just read and
the rest of the file; `j` and `numConnections` go together, so that the store to
`connections[j]` and the increment are `Room.addConnection`.  The result is the room and the
line on which the loop stopped.  A pass reads a line, so the loop makes no more passes than
the file has characters, and `fuel` counts them. -/
def InitRooms.connectionLoop : Nat → Room → List Char → List Char → Option (Room × List Char)
  | fuel, room, fileLine, file =>
    if fileLine.head? = some 'C' then
      match fuel with
      | 0 => none
      | fuel + 1 =>
        match lastWord fileLine with
        | none => none
        | some word =>
          match readLine file with
          | (fileLine1, file1) =>
            InitRooms.connectionLoop fuel (room.addConnection (String.mk word)) fileLine1 file1
    else some (room, fileLine)

/-- The body of the loop `for (i = 0; i < NUM_OF_ROOMS; i++)` of `InitRooms`, for one file:
it fills `rooms[i]` (here `room`) from the text of the file, and says whether the room is the
start room.  The result is `none` when a line that must hold a space holds none. -/
def InitRooms.readRoomFile (room : Room) (file : String) : Option (Room × Bool) :=
  match readLine file.data with
  | (fileLine1, file1) =>
    match lastWord fileLine1 with
    | none => none
    | some word1 =>
      match readLine file1 with
      | (fileLine2, file2) =>
        match InitRooms.connectionLoop file.length
            { room with name := String.mk word1, numConnections := 0 } fileLine2 file2 with
        | none => none
        | some (room3, fileLine3) =>
          match lastWord fileLine3 with
          | none => none
          | some word3 =>
            if String.mk word3 = "START_ROOM" then
              some ({ room3 with type := Types.START_ROOM }, true)
            else if String.mk word3 = "MID_ROOM" then
              some ({ room3 with type := Types.MID_ROOM }, false)
            else if String.mk word3 = "END_ROOM" then
              some ({ room3 with type := Types.END_ROOM }, false)
            else some (room3, false)

/-- The function `int InitRooms(struct Room rooms[])` of the game, given the texts of the
7 files of the rooms directory in the order in which `readdir` lists them: the rooms, and the
index of the start room (`-1` when no file holds `START_ROOM`). -/
def InitRooms (rooms : Rooms) (files : Fin NUM_OF_ROOMS → String) : Option (Rooms × Int) :=
  (List.finRange NUM_OF_ROOMS).foldl
    (fun state i =>
      match state with
      | none => none
      | some (rooms1, startingIndex) =>
        match InitRooms.readRoomFile (rooms1 i) (files i) with
        | none => none
        | some (room, isStart) =>
          some (Function.update rooms1 i room, if isStart then (i.val : Int) else startingIndex))
    (some (rooms, -1))

/-! ## Finding the rooms directory (`adventure.c`, lines 351-403) -/

/-- One entry of the current directory as `readdir` and `stat` give it: its name, whether
`S_ISDIR(st_mode)` holds, and its `st_mtime` (a `time_t`, a signed integer).  The entries are
those for which `stat` succeeds. -/
structure DirEntry where
  d_name : String
  isDir : Bool
  st_mtime : Int

/-- The test `strstr(haystack, needle) != NULL`: whether `needle` occurs somewhere in
`haystack`. -/
def strstr : List Char → List Char → Bool
  | [], needle => needle.isEmpty
  | c :: haystack, needle => needle.isPrefixOf (c :: haystack) || strstr haystack needle

/-- The test `S_ISDIR(dirStat.st_mode) && (strstr(dirEntry->d_name, "rooms.") != NULL)` that
`GetMostRecentDir` applies to an entry. -/
def GetMostRecentDir.isRoomsDir (e : DirEntry) : Bool :=
  e.isDir && strstr e.d_name.data "rooms.".data

/-- The loop `while ((dirEntry = readdir(dir)) != NULL)` of `GetMostRecentDir`, with the values
of `dirName` and `mostRecentTime` on entry. -/
def GetMostRecentDir.loop : List DirEntry → String → Int → String × Int
  | [], dirName, mostRecentTime => (dirName, mostRecentTime)
  | e :: listing, dirName, mostRecentTime =>
    if GetMostRecentDir.isRoomsDir e = true then
      if e.st_mtime > mostRecentTime then GetMostRecentDir.loop listing e.d_name e.st_mtime
      else GetMostRecentDir.loop listing dirName mostRecentTime
    else GetMostRecentDir.loop listing dirName mostRecentTime

/-- The function `void GetMostRecentDir(char dirName[])`, given the entries of the current
directory in the order of `readdir`: the name left in `dirName`, or `none` when the function
ends the program with `exit(1)` because `dirName` is still empty.  The caller passes a buffer
filled with `'\0'`, the empty string. -/
def GetMostRecentDir (dirName : String) (listing : List DirEntry) : Option String :=
  match GetMostRecentDir.loop listing dirName 0 with
  | (name, _) => if name.length = 0 then none else some name

/-! ## The game (`adventure.c`, lines 92-232 and 406-549) -/

/-- The entry `connections[i]` of a room; a read past the end of the array is not modelled
and gives the empty string. -/
def connectionAt (room : Room) (i : Nat) : String :=
  (List.ofFn room.connections).getD i ""

/-- The function `void DisplayRoom(struct Room* room)`: the text it prints. -/
def DisplayRoom (room : Room) : String :=
  "CURRENT ROOM: " ++ room.name ++ "\n" ++ "POSSIBLE CONNECTIONS: "
    ++ (List.range (room.numConnections - 1)).foldl
        (fun out i => out ++ connectionAt room i ++ ", ") ""
    ++ connectionAt room (room.numConnections - 1) ++ ".\n"

/-- The first loop of `GetSelectedRoomIndex`, `for (i = 0; i < numConnections; i++)` with its
`break`, entered with the counter `i` and the entries `connections[i ..]` still to compare:
the value of `i` at the `break`, or `none` when the loop runs to its end. -/
def GetSelectedRoomIndex.firstMatch (roomName : String) : List String → Nat → Option Nat
  | [], _ => none
  | c :: cs, i =>
    if c = roomName then some i else GetSelectedRoomIndex.firstMatch roomName cs (i + 1)

/-- The function `int GetSelectedRoomIndex(struct Room rooms[], struct Room* currentRoom,
char* roomName)`. -/
def GetSelectedRoomIndex (rooms : Rooms) (currentRoom : Room) (roomName : String) : Int :=
  let i := (GetSelectedRoomIndex.firstMatch roomName currentRoom.conns 0).getD
    currentRoom.numConnections
  if i = currentRoom.numConnections then -1
  else
    match (List.finRange NUM_OF_ROOMS).find? fun j => decide ((rooms j).name = roomName) with
    | some j => (j.val : Int)
    | none => -5

/-- The function `void RecordValidChoice(char* roomName, char* filename)`: the text of the
temp file after `roomName` and a newline are appended to it. -/
def RecordValidChoice (roomName : String) (tmpFile : String) : String :=
  tmpFile ++ roomName ++ "\n"

/-- The loop `while ((fgets(fileLine, sizeof(fileLine), file)) != NULL)` of `PrintPlayerPath`:
what it prints.  `fgets` gives `NULL` at the end of the file and reads a character otherwise,
so the loop makes no more passes than the file has characters, and `fuel` counts them. -/
def PrintPlayerPath.loop : Nat → List Char → List Char
  | 0, _ => []
  | fuel + 1, file =>
    if file = [] then []
    else
      match fgets (MAX_CHARS + 1) file with
      | (fileLine, rest) => fileLine ++ PrintPlayerPath.loop fuel rest

/-- The function `void PrintPlayerPath(char* filename)`: the text it prints, given the text of
the temp file. -/
def PrintPlayerPath (tmpFile : String) : String :=
  String.mk (PrintPlayerPath.loop tmpFile.length tmpFile.data)

/-- The function `void DisplayTime()`: the text it prints, given the text of
`currentTime.txt`. -/
def DisplayTime (timeFile : String) : String :=
  match fgets (STR_BUFFER - 1) timeFile.data with
  | (strTime, _) => "\n" ++ String.mk strTime ++ "\n\n"

/-- The variables of `main` that the game loop reads and writes, and the two files it shares
with its helpers.  `currentRoom` is the pointer `&rooms[currentRoomIndex]` as last assigned;
`tmpFile` is the text of the temp file that records the path; `mutexLocked` says whether
`myMutex` is locked; `tasks` counts the threads running `WriteTime` that were created and
not joined, each blocked on `myMutex`; `timeFile` is the text of `currentTime.txt`. -/
structure Game where
  currentRoomIndex : Int
  currentRoom : Fin NUM_OF_ROOMS
  steps : Nat
  tmpFile : String
  mutexLocked : Bool
  tasks : Nat
  timeFile : String
  deriving DecidableEq

/-- The pointer `&rooms[index]`, for an `index` that the guards of `main` have found to lie
between 0 and 6 (on such an index the remainder changes nothing). -/
def roomAt (index : Int) : Fin NUM_OF_ROOMS :=
  ⟨index.toNat % NUM_OF_ROOMS, Nat.mod_lt _ (by decide)⟩

/-- What `main` does before the game loop (lines 105-151), given the index that `InitRooms`
returned: it locks the mutex, creates the first thread, rejects an index outside 0..6 with
`exit(1)` (here `none`), and creates the temp file, empty.  The text that `currentTime.txt`
held before is never read, and is taken as empty. -/
def startGame (startingIndex : Int) : Option Game :=
  if startingIndex < 0 ∨ startingIndex > 6 then none
  else
    some
      { currentRoomIndex := startingIndex
        currentRoom := roomAt startingIndex
        steps := 0
        tmpFile := ""
        mutexLocked := true
        tasks := 1
        timeFile := "" }

/-- The statement `if ((pthread_mutex_trylock(&myMutex)) == 0) pthread_create(...)` at the
top of the game loop: the lock is taken and a thread created only when the mutex is free. -/
def rearm (g : Game) : Game :=
  if g.mutexLocked = true then g else { g with mutexLocked := true, tasks := g.tasks + 1 }

/-- The text in `userChoice` after `getline` and `userChoice[strcspn(userChoice, "\n")] =
'\0'`, given the line that `getline` read. -/
def userChoice (line : String) : String :=
  String.mk (stripNewline line.data)

/-- The branch of the game loop for the choice `time` (lines 177-187): the mutex is unlocked,
the thread is joined, which by then has run `WriteTime` (it locks the mutex, writes the
formatted time `now` to `currentTime.txt`, and unlocks the mutex), and `DisplayTime` prints
the file. -/
def timeQuery (g : Game) (now : String) : Game :=
  if g.tasks = 0 then { g with mutexLocked := false }
  else { g with mutexLocked := false, tasks := g.tasks - 1, timeFile := now }

/-- The rest of the body of the game loop after the prompt (lines 173-216), given the line
that `getline` read and the formatted time at that moment; `none` is `exit(1)`. -/
def processChoice (rooms : Rooms) (g : Game) (line now : String) : Option Game :=
  if userChoice line = "time" then some (timeQuery g now)
  else
    let index := GetSelectedRoomIndex rooms (rooms g.currentRoom) (userChoice line)
    if index = -1 then some { g with currentRoomIndex := index }
    else if index > 6 ∨ index < -1 then none
    else
      some
        { g with
          currentRoomIndex := index
          currentRoom := roomAt index
          tmpFile := RecordValidChoice (userChoice line) g.tmpFile
          steps := g.steps + 1 }

/-- One pass of the body of the game loop (lines 156-216). -/
def gameLoopBody (rooms : Rooms) (g : Game) (line now : String) : Option Game :=
  processChoice rooms (rearm g) line now

/-- The game loop `while ((strcmp(types[currentRoom->type], "END_ROOM")) != 0)`, given the
lines that the player types, each with the formatted time at that moment.  The result is the
state in which the loop exits, or the state at the prompt at which the lines run out; `none`
is `exit(1)`. -/
def gameLoop (rooms : Rooms) : Game → List (String × String) → Option Game
  | g, [] => if types (rooms g.currentRoom).type = "END_ROOM" then some g else some (rearm g)
  | g, (line, now) :: inputs =>
    if types (rooms g.currentRoom).type = "END_ROOM" then some g
    else
      match gameLoopBody rooms g line now with
      | none => none
      | some g1 => gameLoop rooms g1 inputs

/-- What `main` prints after the game loop (lines 221-223). -/
def finalReport (g : Game) : String :=
  "YOU HAVE FOUND THE END ROOM. CONGRATULATIONS!"
    ++ "\nYOU TOOK " ++ toString g.steps ++ " STEPS. YOUR PATH TO VICTORY WAS:\n"
    ++ PrintPlayerPath g.tmpFile

/-- The lines of a text: the pieces that end in a newline, without it, and the piece after
the last newline when it is not empty. -/
def textLines : List Char → List (List Char)
  | [] => []
  | c :: text =>
    if c = '\n' then [] :: textLines text
    else
      match textLines text with
      | [] => [[c]]
      | l :: ls => (c :: l) :: ls

/-- The names recorded in the temp file, one per line, in order. -/
def pathEntries (tmpFile : String) : List String :=
  (textLines tmpFile.data).map String.mk

/-- A room with the given name, type and connections. -/
def mkRoom (name : String) (type : Types) (conns : List String) : Room :=
  { name := name, type := type, numConnections := conns.length
    connections := fun i => conns.getD i.val "" }

/-- The text of a temp file in which the given names were recorded, one after the other. -/
def recordedText : List String → String
  | [] => ""
  | name :: rest => name ++ "\n" ++ recordedText rest

/-- The temp file holds names without newline, one per line, and `steps` counts them. -/
def Recorded (g : Game) : Prop :=
  ∃ entries : List String, (∀ e ∈ entries, '\n' ∉ e.data) ∧ g.tmpFile = recordedText entries ∧
    g.steps = entries.length

/-- A graph in which a room is called `time`, like the command. -/
def timeNamedRooms : Rooms := fun i =>
  if i.val = 0 then mkRoom "Kitchen" Types.START_ROOM ["time", "Library", "Dining"]
  else if i.val = 1 then mkRoom "time" Types.MID_ROOM ["Kitchen", "Library", "Dining", "Trophy"]
  else if i.val = 2 then mkRoom "Library" Types.MID_ROOM ["Kitchen", "Study", "time"]
  else if i.val = 3 then mkRoom "Dining" Types.MID_ROOM ["Kitchen", "time", "Basement"]
  else if i.val = 4 then mkRoom "Basement" Types.MID_ROOM ["Dining", "Trophy", "Study"]
  else if i.val = 5 then mkRoom "Trophy" Types.MID_ROOM ["Basement", "Study", "time"]
  else mkRoom "Study" Types.END_ROOM ["Library", "Trophy", "Basement"]

/-- A graph for the scenarios of the game: `Kitchen` is the start room, `Study` the end
room. -/
def scenarioRooms : Rooms := fun i =>
  if i.val = 0 then mkRoom "Kitchen" Types.START_ROOM ["Attic", "Library", "Dining"]
  else if i.val = 1 then mkRoom "Attic" Types.MID_ROOM ["Kitchen", "Library", "Dining", "Trophy"]
  else if i.val = 2 then mkRoom "Library" Types.MID_ROOM ["Kitchen", "Study", "Attic"]
  else if i.val = 3 then mkRoom "Dining" Types.MID_ROOM ["Kitchen", "Attic", "Basement"]
  else if i.val = 4 then mkRoom "Basement" Types.MID_ROOM ["Dining", "Trophy", "Study"]
  else if i.val = 5 then mkRoom "Trophy" Types.MID_ROOM ["Basement", "Study", "Attic"]
  else mkRoom "Study" Types.END_ROOM ["Library", "Trophy", "Basement"]

/-- The state of a game in `scenarioRooms` at its start. -/
def scenarioStart : Game :=
  { currentRoomIndex := 0, currentRoom := 0, steps := 0, tmpFile := "", mutexLocked := true,
    tasks := 1, timeFile := "" }

/-- The rooms of `scenarioRooms` with a second room called `Library`: room 5 has the name of
room 2. -/
def twinRooms : Rooms := fun i =>
  if i.val = 5 then mkRoom "Library" Types.MID_ROOM ["Basement", "Study", "Attic"]
  else scenarioRooms i

/-- What a player does in a game, told without the program.  `Played rooms a inputs path` says
that the lines `inputs` are typed one after the other, the first of them in the room `a`, each
of them in a room that is not the end room, and that each line is either ignored (its text is
`time`, or it is not a connection of the room the player is in) or a valid move (its text is a
connection of the room the player is in and is not `time`; the room entered is the first room
of the array that has this name); `path` lists the rooms entered by the valid moves, in
order. -/
inductive Played (rooms : Rooms) :
    Fin NUM_OF_ROOMS → List (String × String) → List (Fin NUM_OF_ROOMS) → Prop
  | done (a : Fin NUM_OF_ROOMS) : Played rooms a [] []
  | ignored (a : Fin NUM_OF_ROOMS) (line now : String) (inputs : List (String × String))
      (path : List (Fin NUM_OF_ROOMS)) :
      (rooms a).type ≠ Types.END_ROOM →
      (userChoice line = "time" ∨ userChoice line ∉ (rooms a).conns) →
      Played rooms a inputs path → Played rooms a ((line, now) :: inputs) path
  | moved (a b : Fin NUM_OF_ROOMS) (line now : String) (inputs : List (String × String))
      (path : List (Fin NUM_OF_ROOMS)) :
      (rooms a).type ≠ Types.END_ROOM →
      userChoice line ≠ "time" →
      userChoice line ∈ (rooms a).conns →
      (rooms b).name = userChoice line →
      (∀ j : Fin NUM_OF_ROOMS, (rooms j).name = userChoice line → b ≤ j) →
      Played rooms b inputs path → Played rooms a ((line, now) :: inputs) (b :: path)

/-- A name that the format of the room files carries: not empty, no space, no newline, and
at most `MAX_CHARS` characters. -/
@[reducible] def fitsFormat (s : String) : Prop :=
  s ≠ "" ∧ ' ' ∉ s.data ∧ '\n' ∉ s.data ∧ s.length ≤ MAX_CHARS

/-- A room as the generator may write it: the `Library` of some graph. -/
def sampleRoom : Room :=
  { name := "Library", type := Types.END_ROOM, numConnections := 3,
    connections := fun i =>
      if i.val = 0 then "Attic" else if i.val = 1 then "Study" else if i.val = 2 then "Trophy"
      else "" }

end Adventure

namespace BuildRooms

/-! ## Stored connections -/

theorem take_ofFn_update {α : Type} {m : Nat} (c : Fin m → α) (n : Nat) (h : n < m) (s : α) :
    (List.ofFn (Function.update c ⟨n, h⟩ s)).take (n + 1) = (List.ofFn c).take n ++ [s] := by
  apply List.ext_getElem
  · simp only [List.length_take, List.length_ofFn, List.length_append, List.length_singleton]
    omega
  · intro i h1 h2
    have hi : i < n + 1 := by
      simp only [List.length_take, List.length_ofFn] at h1
      omega
    have hlen : (List.take n (List.ofFn c)).length = n := by
      rw [List.length_take, List.length_ofFn]
      omega
    rw [List.getElem_take, List.getElem_ofFn]
    by_cases hin : i = n
    · subst hin
      rw [List.getElem_append_right (by omega)]
      simp
    · rw [List.getElem_append_left (by omega)]
      rw [List.getElem_take, List.getElem_ofFn, Function.update_noteq]
      intro hc
      exact hin (congrArg Fin.val hc)

theorem Room.conns_addConnection (r : Room) (s : String) (h : r.numConnections < MAX_CONNECTIONS) :
    (r.addConnection s).conns = r.conns ++ [s] := by
  unfold Room.addConnection Room.conns
  simp only [h, dif_pos]
  exact take_ofFn_update r.connections r.numConnections h s

theorem Room.length_conns (r : Room) (h : r.numConnections ≤ MAX_CONNECTIONS) :
    r.conns.length = r.numConnections := by
  unfold Room.conns
  rw [List.length_take, List.length_ofFn]
  exact Nat.min_eq_left h

theorem ConnectionAlreadyExists_iff (roomA roomB : Room) :
    ConnectionAlreadyExists roomA roomB = true ↔ roomB.name ∈ roomA.conns := by
  unfold ConnectionAlreadyExists
  rw [List.any_eq_true]
  constructor
  · rintro ⟨c, hc, hcb⟩
    have : c = roomB.name := by simpa using hcb
    exact this ▸ hc
  · intro h
    exact ⟨roomB.name, h, by simp⟩

/-! ## What one call of `AddRandomConnection` does -/

theorem selectA_spec (rooms : Rooms) (draws : List Nat) (a : Fin NUM_OF_ROOMS) (rest : List Nat)
    (h : AddRandomConnection.selectA rooms draws = some (a, rest)) :
    (rooms a).numConnections < 6 ∧ rest.length < draws.length := by
  induction draws with
  | nil => simp [AddRandomConnection.selectA] at h
  | cons r draws ih =>
    simp only [AddRandomConnection.selectA] at h
    split at h
    · simp only [Option.some.injEq, Prod.mk.injEq] at h
      obtain ⟨ha, hr⟩ := h
      subst ha hr
      exact ⟨by assumption, by simp⟩
    · obtain ⟨h1, h2⟩ := ih h
      exact ⟨h1, by simp only [List.length_cons]; omega⟩

theorem selectB_spec (rooms : Rooms) (a : Fin NUM_OF_ROOMS) (draws : List Nat)
    (b : Fin NUM_OF_ROOMS) (rest : List Nat)
    (h : AddRandomConnection.selectB rooms a draws = some (b, rest)) :
    (rooms b).numConnections < 6 ∧ a ≠ b ∧ (rooms b).name ∉ (rooms a).conns
      ∧ rest.length < draws.length := by
  induction draws with
  | nil => simp [AddRandomConnection.selectB] at h
  | cons r draws ih =>
    simp only [AddRandomConnection.selectB] at h
    split at h
    · obtain ⟨h1, h2, h3, h4⟩ := ih h
      exact ⟨h1, h2, h3, by simp only [List.length_cons]; omega⟩
    · rename_i hc
      simp only [Option.some.injEq, Prod.mk.injEq] at h
      obtain ⟨hb, hr⟩ := h
      subst hb hr
      rw [ConnectionAlreadyExists_iff] at hc
      push_neg at hc
      exact ⟨by omega, hc.2.1, hc.2.2, by simp⟩

/-- Every call that returns has added one edge between two distinct rooms with a free slot
that were not yet connected. -/
theorem AddRandomConnection_spec (rooms rooms1 : Rooms) (draws rest : List Nat)
    (h : AddRandomConnection rooms draws = some (rooms1, rest)) :
    ∃ a b : Fin NUM_OF_ROOMS, (rooms a).numConnections < 6 ∧ (rooms b).numConnections < 6
      ∧ a ≠ b ∧ (rooms b).name ∉ (rooms a).conns
      ∧ rooms1 = AddRandomConnection.connect rooms a b ∧ rest.length < draws.length := by
  unfold AddRandomConnection at h
  split at h
  · simp at h
  · rename_i a draws1 hA
    split at h
    · simp at h
    · rename_i b draws2 hB
      simp only [Option.some.injEq, Prod.mk.injEq] at h
      obtain ⟨h1, h2⟩ := h
      subst h1 h2
      obtain ⟨ha, hl1⟩ := selectA_spec rooms draws a draws1 hA
      obtain ⟨hb, hab, hnc, hl2⟩ := selectB_spec rooms a draws1 b draws2 hB
      exact ⟨a, b, ha, hb, hab, hnc, rfl, by omega⟩

theorem connect_apply (rooms : Rooms) (a b c : Fin NUM_OF_ROOMS) (hab : a ≠ b) :
    AddRandomConnection.connect rooms a b c =
      if c = a then (rooms a).addConnection (rooms b).name
      else if c = b then (rooms b).addConnection (rooms a).name
      else rooms c := by
  unfold AddRandomConnection.connect
  by_cases hca : c = a
  · subst hca
    simp [Function.update_noteq hab, Function.update_same]
  · by_cases hcb : c = b
    · subst hcb
      simp [hca, Function.update_same, Function.update_noteq, Room.addConnection, Ne.symm hab]
    · simp [hca, hcb, Function.update_noteq]

theorem connect_name (rooms : Rooms) (a b c : Fin NUM_OF_ROOMS) (hab : a ≠ b) :
    (AddRandomConnection.connect rooms a b c).name = (rooms c).name := by
  rw [connect_apply rooms a b c hab]
  split
  · next h => subst h; rfl
  · split
    · next h => subst h; rfl
    · rfl

theorem connect_type (rooms : Rooms) (a b c : Fin NUM_OF_ROOMS) (hab : a ≠ b) :
    (AddRandomConnection.connect rooms a b c).type = (rooms c).type := by
  rw [connect_apply rooms a b c hab]
  split
  · next h => subst h; rfl
  · split
    · next h => subst h; rfl
    · rfl

theorem connect_numConnections (rooms : Rooms) (a b c : Fin NUM_OF_ROOMS) (hab : a ≠ b) :
    (AddRandomConnection.connect rooms a b c).numConnections =
      (rooms c).numConnections + (if c = a ∨ c = b then 1 else 0) := by
  rw [connect_apply rooms a b c hab]
  by_cases hca : c = a
  · subst hca; simp [Room.addConnection]
  · by_cases hcb : c = b
    · subst hcb; simp [Room.addConnection, hca]
    · simp [hca, hcb]

/-- The name that a call connecting `a` and `b` appends to the list of room `c`. -/
theorem connect_conns (rooms : Rooms) (a b c : Fin NUM_OF_ROOMS) (hab : a ≠ b)
    (ha : (rooms a).numConnections < 6) (hb : (rooms b).numConnections < 6) :
    (AddRandomConnection.connect rooms a b c).conns =
      (rooms c).conns ++
        (if c = a then [(rooms b).name] else if c = b then [(rooms a).name] else []) := by
  rw [connect_apply rooms a b c hab]
  by_cases hca : c = a
  · subst hca
    simp only [if_true]
    exact Room.conns_addConnection _ _ ha
  · by_cases hcb : c = b
    · subst hcb
      simp only [hca, if_false, if_true]
      exact Room.conns_addConnection _ _ hb
    · simp [hca, hcb]

/-! ## `Shuffle` -/

theorem perm_set_set (l : List Int) (i j : Nat) (hi : i < l.length) (hj : j < l.length) :
    List.Perm ((l.set i (l.getD j 0)).set j (l.getD i 0)) l := by
  rw [List.perm_iff_count]
  intro b
  have hj1 : j < (l.set i (l.getD j 0)).length := by simpa using hj
  rw [List.count_set _ _ _ _ hj1, List.count_set _ _ _ _ hi]
  have hget : (l.set i (l.getD j 0))[j] = l[j] := by
    rw [List.getElem_set]
    split
    · next h => subst h; exact List.getD_eq_getElem _ _ hi
    · rfl
  rw [hget, List.getD_eq_getElem _ _ hi, List.getD_eq_getElem _ _ hj]
  have h1 : (if l[i] == b then 1 else 0) ≤ l.count b := by
    split
    · next h =>
      have hb : l[i] = b := by simpa using h
      exact List.count_pos_iff.mpr (hb ▸ List.getElem_mem hi)
    · exact Nat.zero_le _
  omega

theorem swapStep_perm (arr : List Int) (i r : Nat) (h0 : 0 < i) (hi : i < arr.length) :
    List.Perm (Shuffle.swapStep arr i r) arr := by
  unfold Shuffle.swapStep
  exact perm_set_set arr i (r % i) hi (lt_trans (Nat.mod_lt r h0) hi)

theorem Shuffle_loop_perm (k : Nat) : ∀ (arr : List Int) (draws : List Nat),
    k < arr.length → k ≤ draws.length →
    ∃ out rest, Shuffle.loop arr k draws = some (out, rest) ∧ List.Perm out arr
      ∧ rest.length + k = draws.length := by
  induction k with
  | zero =>
    intro arr draws _ _
    exact ⟨arr, draws, rfl, List.Perm.refl _, rfl⟩
  | succ k ih =>
    intro arr draws hk hd
    cases draws with
    | nil => simp at hd
    | cons r draws =>
      have hp := swapStep_perm arr (k + 1) r (Nat.succ_pos k) hk
      obtain ⟨out, rest, h1, h2, h3⟩ := ih (Shuffle.swapStep arr (k + 1) r) draws
        (by rw [hp.length_eq]; omega) (by simpa using hd)
      exact ⟨out, rest, by simpa [Shuffle.loop] using h1, h2.trans hp,
        by simp only [List.length_cons]; omega⟩

/-! ## `InitRooms` -/

/-- The array `indexes` of `InitRooms` before it is shuffled. -/
theorem Shuffle_indexes (draws : List Nat) (indexes : List Int) (rest : List Nat)
    (h : Shuffle [0, 1, 2, 3, 4, 5, 6, 7, 8, 9] NUM_OF_NAMES draws = some (indexes, rest)) :
    List.Perm indexes [0, 1, 2, 3, 4, 5, 6, 7, 8, 9] := by
  unfold Shuffle at h
  by_cases hd : 9 ≤ draws.length
  · obtain ⟨out, rest1, h1, h2, _⟩ :=
      Shuffle_loop_perm 9 [0, 1, 2, 3, 4, 5, 6, 7, 8, 9] draws (by decide) hd
    have h3 : Shuffle.loop [0, 1, 2, 3, 4, 5, 6, 7, 8, 9] (NUM_OF_NAMES - 1) draws
        = some (out, rest1) := h1
    rw [h3] at h
    simp only [Option.some.injEq, Prod.mk.injEq] at h
    exact h.1 ▸ h2
  · exfalso
    have hlt : draws.length < 9 := by omega
    have key : ∀ (k : Nat) (arr : List Int) (ds : List Nat), ds.length < k →
        Shuffle.loop arr k ds = none := by
      intro k
      induction k with
      | zero => intro arr ds h0; simp at h0
      | succ k ih =>
        intro arr ds hk
        cases ds with
        | nil => rfl
        | cons r ds =>
          simp only [Shuffle.loop]
          exact ih _ ds (by simpa using hk)
    have h3 : Shuffle.loop [0, 1, 2, 3, 4, 5, 6, 7, 8, 9] (NUM_OF_NAMES - 1) draws = none :=
      key 9 _ draws hlt
    rw [h3] at h
    simp at h

theorem InitRooms_spec (mem rooms : Rooms) (draws rest : List Nat)
    (h : InitRooms mem draws = some (rooms, rest)) :
    ∃ indexes : List Int, List.Perm indexes [0, 1, 2, 3, 4, 5, 6, 7, 8, 9] ∧
      ∀ i : Fin NUM_OF_ROOMS,
        (rooms i).name = names.getD (indexes.getD i.val 0).toNat "" ∧
        (rooms i).numConnections = 0 ∧
        (rooms i).type =
          (if i = 0 then Types.START_ROOM else if i = 6 then Types.END_ROOM
            else Types.MID_ROOM) := by
  unfold InitRooms at h
  split at h
  · simp at h
  · rename_i indexes rest1 hS
    simp only [Option.some.injEq, Prod.mk.injEq] at h
    obtain ⟨h1, _⟩ := h
    subst h1
    refine ⟨indexes, Shuffle_indexes draws indexes rest1 hS, ?_⟩
    intro i
    by_cases h6 : i = 6
    · subst h6
      simp [Function.update_same]
    · by_cases h0 : i = 0
      · subst h0
        simp [Function.update_noteq h6, Function.update_same]
      · simp [Function.update_noteq h6, Function.update_noteq h0, h0, h6]

theorem InitRooms_returns (mem : Rooms) (draws : List Nat) (hd : 9 ≤ draws.length) :
    ∃ rooms rest, InitRooms mem draws = some (rooms, rest) ∧ rest.length + 9 = draws.length := by
  obtain ⟨out, rest1, h1, _, h3⟩ :=
    Shuffle_loop_perm 9 [0, 1, 2, 3, 4, 5, 6, 7, 8, 9] draws (by decide) hd
  have h2 : Shuffle [0, 1, 2, 3, 4, 5, 6, 7, 8, 9] NUM_OF_NAMES draws = some (out, rest1) := h1
  unfold InitRooms
  rw [h2]
  exact ⟨_, rest1, rfl, h3⟩

theorem names_getD_injective (a b : Nat) (ha : a < 10) (hb : b < 10)
    (h : names.getD a "" = names.getD b "") : a = b := by
  have hn : names.Nodup := by decide
  have hla : a < names.length := ha
  have hlb : b < names.length := hb
  rw [List.getD_eq_getElem _ _ hla, List.getD_eq_getElem _ _ hlb] at h
  exact (List.Nodup.getElem_inj_iff hn).mp h

theorem InitRooms_names (mem rooms : Rooms) (draws rest : List Nat)
    (h : InitRooms mem draws = some (rooms, rest)) :
    (∀ i j : Fin NUM_OF_ROOMS, (rooms i).name = (rooms j).name → i = j) ∧
    (∀ i : Fin NUM_OF_ROOMS, (rooms i).name ∈ names) := by
  obtain ⟨indexes, hperm, hspec⟩ := InitRooms_spec mem rooms draws rest h
  have hlen : indexes.length = 10 := hperm.length_eq
  have hnd : indexes.Nodup := hperm.nodup_iff.mpr (by decide)
  have hrange : ∀ x ∈ indexes, 0 ≤ x ∧ x < 10 := by
    intro x hx
    have hx1 : x ∈ ([0, 1, 2, 3, 4, 5, 6, 7, 8, 9] : List Int) := hperm.mem_iff.mp hx
    simp only [List.mem_cons, List.mem_singleton, List.not_mem_nil, or_false] at hx1
    omega
  have hget : ∀ i : Fin NUM_OF_ROOMS, ∃ hi : i.val < indexes.length,
      indexes.getD i.val 0 = indexes[i.val] := by
    intro i
    have hi : i.val < indexes.length := by
      have h7 : i.val < 7 := i.isLt
      omega
    exact ⟨hi, List.getD_eq_getElem _ _ hi⟩
  constructor
  · intro i j hij
    rw [(hspec i).1, (hspec j).1] at hij
    obtain ⟨hi, hgi⟩ := hget i
    obtain ⟨hj, hgj⟩ := hget j
    rw [hgi, hgj] at hij
    have hri := hrange _ (List.getElem_mem hi)
    have hrj := hrange _ (List.getElem_mem hj)
    have hnat := names_getD_injective _ _ (by omega) (by omega) hij
    have hint : indexes[i.val] = indexes[j.val] := by omega
    exact Fin.ext ((List.Nodup.getElem_inj_iff hnd).mp hint)
  · intro i
    rw [(hspec i).1]
    obtain ⟨hi, hgi⟩ := hget i
    rw [hgi]
    have hri := hrange _ (List.getElem_mem hi)
    have hlt : (indexes[i.val]).toNat < names.length := by
      have : names.length = 10 := rfl
      omega
    rw [List.getD_eq_getElem _ _ hlt]
    exact List.getElem_mem hlt

/-! ## The invariant of the graph -/

theorem GraphInv_init (mem rooms : Rooms) (draws rest : List Nat)
    (h : InitRooms mem draws = some (rooms, rest)) : GraphInv rooms := by
  obtain ⟨_, _, hspec⟩ := InitRooms_spec mem rooms draws rest h
  have hnil : ∀ a : Fin NUM_OF_ROOMS, (rooms a).conns = [] := by
    intro a
    unfold Room.conns
    rw [(hspec a).2.1]
    rfl
  refine ⟨(InitRooms_names mem rooms draws rest h).1, ?_, ?_, ?_, ?_⟩
  · intro a
    rw [(hspec a).2.1]
    exact Nat.zero_le _
  · intro a
    rw [hnil a]
    exact List.nodup_nil
  · intro a s hs
    rw [hnil a] at hs
    simp at hs
  · intro a b hb
    rw [hnil a] at hb
    simp at hb

theorem GraphInv_connect (rooms : Rooms) (a b : Fin NUM_OF_ROOMS) (hinv : GraphInv rooms)
    (ha : (rooms a).numConnections < 6) (hb : (rooms b).numConnections < 6) (hab : a ≠ b)
    (hnc : (rooms b).name ∉ (rooms a).conns) :
    GraphInv (AddRandomConnection.connect rooms a b) := by
  have hnc2 : (rooms a).name ∉ (rooms b).conns := fun hc => hnc (hinv.symm b a hc)
  refine ⟨?_, ?_, ?_, ?_, ?_⟩
  · intro c d hcd
    rw [connect_name rooms a b c hab, connect_name rooms a b d hab] at hcd
    exact hinv.names_inj c d hcd
  · intro c
    rw [connect_numConnections rooms a b c hab]
    have hc := hinv.count_le c
    have hM : MAX_CONNECTIONS = 6 := rfl
    split
    · next h =>
      rcases h with h | h <;> subst h <;> omega
    · omega
  · intro c
    rw [connect_conns rooms a b c hab ha hb]
    by_cases hca : c = a
    · subst hca
      simp only [if_true]
      exact List.Nodup.append (hinv.nodup c) (List.nodup_singleton _) (by simpa using hnc)
    · by_cases hcb : c = b
      · subst hcb
        simp only [hca, if_false, if_true]
        exact List.Nodup.append (hinv.nodup c) (List.nodup_singleton _) (by simpa using hnc2)
      · simp only [hca, hcb, if_false, List.append_nil]
        exact hinv.nodup c
  · intro c s hs
    rw [connect_conns rooms a b c hab ha hb, List.mem_append] at hs
    rcases hs with hs | hs
    · obtain ⟨d, hd, hname⟩ := hinv.target c s hs
      exact ⟨d, hd, by rw [connect_name rooms a b d hab]; exact hname⟩
    · by_cases hca : c = a
      · subst hca
        simp only [if_true, List.mem_singleton] at hs
        exact ⟨b, Ne.symm hab, by rw [connect_name rooms c b b hab]; exact hs.symm⟩
      · by_cases hcb : c = b
        · subst hcb
          simp only [hca, if_false, if_true, List.mem_singleton] at hs
          exact ⟨a, hab, by rw [connect_name rooms a c a hab]; exact hs.symm⟩
        · simp [hca, hcb] at hs
  · intro c d hd
    rw [connect_name rooms a b d hab, connect_conns rooms a b c hab ha hb, List.mem_append] at hd
    rw [connect_name rooms a b c hab, connect_conns rooms a b d hab ha hb, List.mem_append]
    rcases hd with hd | hd
    · exact Or.inl (hinv.symm c d hd)
    · right
      by_cases hca : c = a
      · subst hca
        simp only [if_true, List.mem_singleton] at hd
        have hdb : d = b := hinv.names_inj d b hd
        subst hdb
        simp [Ne.symm hab]
      · by_cases hcb : c = b
        · subst hcb
          simp only [hca, if_false, if_true, List.mem_singleton] at hd
          have hda : d = a := hinv.names_inj d a hd
          subst hda
          simp
        · simp [hca, hcb] at hd

theorem GraphInv_AddRandomConnection (rooms rooms1 : Rooms) (draws rest : List Nat)
    (hinv : GraphInv rooms) (h : AddRandomConnection rooms draws = some (rooms1, rest)) :
    GraphInv rooms1 := by
  obtain ⟨a, b, ha, hb, hab, hnc, heq, _⟩ := AddRandomConnection_spec rooms rooms1 draws rest h
  subst heq
  exact GraphInv_connect rooms a b hinv ha hb hab hnc

theorem GraphInv_addConnections (k : Nat) : ∀ (rooms rooms1 : Rooms) (draws rest : List Nat),
    GraphInv rooms → addConnections k rooms draws = some (rooms1, rest) → GraphInv rooms1 := by
  induction k with
  | zero =>
    intro rooms rooms1 draws rest hinv h
    simp only [addConnections, Option.some.injEq, Prod.mk.injEq] at h
    exact h.1 ▸ hinv
  | succ k ih =>
    intro rooms rooms1 draws rest hinv h
    simp only [addConnections] at h
    split at h
    · simp at h
    · next r2 d2 h2 =>
      exact ih r2 rooms1 d2 rest (GraphInv_AddRandomConnection rooms r2 draws d2 hinv h2) h

theorem GraphInv_runCalls (mem rooms : Rooms) (k : Nat) (draws rest : List Nat)
    (h : runCalls mem k draws = some (rooms, rest)) : GraphInv rooms := by
  unfold runCalls at h
  split at h
  · simp at h
  · next r0 d0 h0 =>
    exact GraphInv_addConnections k r0 rooms d0 rest (GraphInv_init mem r0 draws d0 h0) h

/-! ## Names and types are fixed by `InitRooms` -/

theorem AddRandomConnection_name_type (rooms rooms1 : Rooms) (draws rest : List Nat)
    (h : AddRandomConnection rooms draws = some (rooms1, rest)) (c : Fin NUM_OF_ROOMS) :
    (rooms1 c).name = (rooms c).name ∧ (rooms1 c).type = (rooms c).type := by
  obtain ⟨a, b, _, _, hab, _, heq, _⟩ := AddRandomConnection_spec rooms rooms1 draws rest h
  subst heq
  exact ⟨connect_name rooms a b c hab, connect_type rooms a b c hab⟩

theorem addConnections_name_type (k : Nat) : ∀ (rooms rooms1 : Rooms) (draws rest : List Nat),
    addConnections k rooms draws = some (rooms1, rest) → ∀ c : Fin NUM_OF_ROOMS,
    (rooms1 c).name = (rooms c).name ∧ (rooms1 c).type = (rooms c).type := by
  induction k with
  | zero =>
    intro rooms rooms1 draws rest h c
    simp only [addConnections, Option.some.injEq, Prod.mk.injEq] at h
    rw [← h.1]
    exact ⟨rfl, rfl⟩
  | succ k ih =>
    intro rooms rooms1 draws rest h c
    simp only [addConnections] at h
    split at h
    · simp at h
    · next r2 d2 h2 =>
      obtain ⟨h3, h4⟩ := ih r2 rooms1 d2 rest h c
      obtain ⟨h5, h6⟩ := AddRandomConnection_name_type rooms r2 draws d2 h2 c
      exact ⟨h3.trans h5, h4.trans h6⟩

theorem runCalls_type (mem rooms : Rooms) (k : Nat) (draws rest : List Nat)
    (h : runCalls mem k draws = some (rooms, rest)) (i : Fin NUM_OF_ROOMS) :
    (rooms i).type =
      (if i = 0 then Types.START_ROOM else if i = 6 then Types.END_ROOM
        else Types.MID_ROOM) := by
  unfold runCalls at h
  split at h
  · simp at h
  · next r0 d0 h0 =>
    obtain ⟨_, _, hspec⟩ := InitRooms_spec mem r0 draws d0 h0
    rw [(addConnections_name_type k r0 rooms d0 rest h i).2]
    exact (hspec i).2.2

theorem IsGraphFull_iff (rooms : Rooms) :
    IsGraphFull rooms = true ↔ ∀ i : Fin NUM_OF_ROOMS, 3 ≤ (rooms i).numConnections := by
  unfold IsGraphFull
  rw [List.all_eq_true]
  constructor
  · intro h i
    have := h i (List.mem_finRange i)
    simpa using this
  · intro h i _
    simpa using h i

/-! ## Degree bounds, symmetry, self-edges, duplicates, room types -/

/-- C1: whatever the draws, once `IsGraphFull` is true in a state that `InitRooms` and any
number of calls of `AddRandomConnection` have produced (the state in which the loop of `main`
stops), each of the 7 rooms has between 3 and 6 connections. -/
theorem degree_bounds_when_full (mem : Rooms) (k : Nat) (draws : List Nat) (rooms : Rooms)
    (rest : List Nat) (hrun : runCalls mem k draws = some (rooms, rest))
    (hfull : IsGraphFull rooms = true) (i : Fin NUM_OF_ROOMS) :
    3 ≤ (rooms i).numConnections ∧ (rooms i).numConnections ≤ 6 :=
  ⟨(IsGraphFull_iff rooms).mp hfull i, (GraphInv_runCalls mem rooms k draws rest hrun).count_le i⟩

theorem degree_bounds_when_full_witness :
    runCalls blankRooms 12 sampleDraws = some (sampleGraph, []) ∧
    IsGraphFull sampleGraph = true ∧
    3 ≤ (sampleGraph 4).numConnections ∧ (sampleGraph 4).numConnections ≤ 6 :=
  ⟨rfl, rfl, degree_bounds_when_full blankRooms 12 sampleDraws sampleGraph [] rfl rfl 4⟩

/-- C2: in every state that `InitRooms` and any number of calls of `AddRandomConnection`
produce, the name of room B is among the connections of room A if and only if the name of
room A is among the connections of room B. -/
theorem connections_symmetric (mem : Rooms) (k : Nat) (draws : List Nat) (rooms : Rooms)
    (rest : List Nat) (hrun : runCalls mem k draws = some (rooms, rest))
    (a b : Fin NUM_OF_ROOMS) :
    (rooms b).name ∈ (rooms a).conns ↔ (rooms a).name ∈ (rooms b).conns :=
  ⟨(GraphInv_runCalls mem rooms k draws rest hrun).symm a b,
   (GraphInv_runCalls mem rooms k draws rest hrun).symm b a⟩

theorem connections_symmetric_witness :
    runCalls blankRooms 12 sampleDraws = some (sampleGraph, []) ∧
    ((sampleGraph 1).name ∈ (sampleGraph 0).conns ↔
      (sampleGraph 0).name ∈ (sampleGraph 1).conns) :=
  ⟨rfl, connections_symmetric blankRooms 12 sampleDraws sampleGraph [] rfl 0 1⟩

/-- C3: in every state that `InitRooms` and any number of calls of `AddRandomConnection`
produce, no room has its own name among its connections. -/
theorem no_self_connection (mem : Rooms) (k : Nat) (draws : List Nat) (rooms : Rooms)
    (rest : List Nat) (hrun : runCalls mem k draws = some (rooms, rest))
    (a : Fin NUM_OF_ROOMS) : (rooms a).name ∉ (rooms a).conns := by
  have hinv := GraphInv_runCalls mem rooms k draws rest hrun
  intro hmem
  obtain ⟨b, hb, hname⟩ := hinv.target a _ hmem
  exact hb (hinv.names_inj b a hname)

theorem no_self_connection_witness :
    runCalls blankRooms 12 sampleDraws = some (sampleGraph, []) ∧
    (sampleGraph 2).name ∉ (sampleGraph 2).conns :=
  ⟨rfl, no_self_connection blankRooms 12 sampleDraws sampleGraph [] rfl 2⟩

/-- C4: in every state that `InitRooms` and any number of calls of `AddRandomConnection`
produce, the first `numConnections` connections of a room hold no name twice.  This is so
for every room, hence for the room a call picked as A and for the room it picked as B. -/
theorem no_duplicate_connection (mem : Rooms) (k : Nat) (draws : List Nat) (rooms : Rooms)
    (rest : List Nat) (hrun : runCalls mem k draws = some (rooms, rest))
    (a : Fin NUM_OF_ROOMS) : (rooms a).conns.Nodup :=
  (GraphInv_runCalls mem rooms k draws rest hrun).nodup a

theorem no_duplicate_connection_witness :
    runCalls blankRooms 12 sampleDraws = some (sampleGraph, []) ∧
    (sampleGraph 1).conns.Nodup :=
  ⟨rfl, no_duplicate_connection blankRooms 12 sampleDraws sampleGraph [] rfl 1⟩

/-- C5: after `InitRooms` and after any number of calls of `AddRandomConnection`, `rooms[0]`
has type `START_ROOM`, `rooms[6]` has type `END_ROOM` and the rooms between them have type
`MID_ROOM`; so a room is the start room exactly when it is `rooms[0]` and the end room
exactly when it is `rooms[6]`. -/
theorem room_types_fixed (mem : Rooms) (k : Nat) (draws : List Nat) (rooms : Rooms)
    (rest : List Nat) (hrun : runCalls mem k draws = some (rooms, rest)) :
    (rooms 0).type = Types.START_ROOM ∧ (rooms 6).type = Types.END_ROOM ∧
    (∀ i : Fin NUM_OF_ROOMS, i ≠ 0 → i ≠ 6 → (rooms i).type = Types.MID_ROOM) ∧
    (∀ i : Fin NUM_OF_ROOMS, (rooms i).type = Types.START_ROOM ↔ i = 0) ∧
    (∀ i : Fin NUM_OF_ROOMS, (rooms i).type = Types.END_ROOM ↔ i = 6) := by
  have ht := runCalls_type mem rooms k draws rest hrun
  refine ⟨by rw [ht 0]; rfl, by rw [ht 6]; rfl, ?_, ?_, ?_⟩
  · intro i h0 h6
    rw [ht i]
    simp [h0, h6]
  · intro i
    rw [ht i]
    by_cases h0 : i = 0
    · simp [h0]
    · by_cases h6 : i = 6 <;> simp [h0, h6]
  · intro i
    rw [ht i]
    by_cases h6 : i = 6
    · subst h6; decide
    · by_cases h0 : i = 0 <;> simp [h0, h6]

theorem room_types_fixed_witness :
    runCalls blankRooms 12 sampleDraws = some (sampleGraph, []) ∧
    (sampleGraph 0).type = Types.START_ROOM ∧ (sampleGraph 6).type = Types.END_ROOM :=
  ⟨rfl, (room_types_fixed blankRooms 12 sampleDraws sampleGraph [] rfl).1,
    (room_types_fixed blankRooms 12 sampleDraws sampleGraph [] rfl).2.1⟩

/-! ## `Shuffle` permutes, `InitRooms` picks distinct names -/

/-- C6: given the `n - 1` draws it consumes, `Shuffle` returns, and the array it returns is a
permutation of the array it was given (`n` elements or more); and given the 9 draws it
consumes, `InitRooms` returns 7 rooms with pairwise distinct names, each a name of the pool
of 10. -/
theorem shuffle_permutes_and_names_distinct (arr : List Int) (n : Nat) (draws : List Nat)
    (mem : Rooms) (draws1 : List Nat) (hn : n ≤ arr.length) (hd : n - 1 ≤ draws.length)
    (hd1 : 9 ≤ draws1.length) :
    (∃ out rest, Shuffle arr n draws = some (out, rest) ∧ List.Perm out arr) ∧
    (∃ rooms rest, InitRooms mem draws1 = some (rooms, rest) ∧
      (∀ i j : Fin NUM_OF_ROOMS, i ≠ j → (rooms i).name ≠ (rooms j).name) ∧
      (∀ i : Fin NUM_OF_ROOMS, (rooms i).name ∈ names)) := by
  constructor
  · unfold Shuffle
    by_cases h0 : n - 1 = 0
    · rw [h0]
      exact ⟨arr, draws, rfl, List.Perm.refl _⟩
    · obtain ⟨out, rest, h1, h2, _⟩ := Shuffle_loop_perm (n - 1) arr draws (by omega) hd
      exact ⟨out, rest, h1, h2⟩
  · obtain ⟨rooms, rest, h1, _⟩ := InitRooms_returns mem draws1 hd1
    obtain ⟨h2, h3⟩ := InitRooms_names mem rooms draws1 rest h1
    exact ⟨rooms, rest, h1, fun i j hij hname => hij (h2 i j hname), h3⟩

theorem shuffle_permutes_and_names_distinct_witness :
    (3 : Nat) ≤ ([10, 20, 30] : List Int).length ∧ 3 - 1 ≤ ([7, 4] : List Nat).length ∧
    9 ≤ sampleDraws.length ∧
    (∃ out rest, Shuffle [10, 20, 30] 3 [7, 4] = some (out, rest) ∧
      List.Perm out [10, 20, 30]) ∧
    (∃ rooms rest, InitRooms blankRooms sampleDraws = some (rooms, rest) ∧
      (∀ i j : Fin NUM_OF_ROOMS, i ≠ j → (rooms i).name ≠ (rooms j).name) ∧
      (∀ i : Fin NUM_OF_ROOMS, (rooms i).name ∈ names)) :=
  ⟨by decide, by decide, by decide,
    shuffle_permutes_and_names_distinct [10, 20, 30] 3 [7, 4] blankRooms sampleDraws
      (by decide) (by decide) (by decide)⟩

/-! ## Counting neighbours -/

theorem mem_neighbours (rooms : Rooms) (a b : Fin NUM_OF_ROOMS) :
    b ∈ neighbours rooms a ↔ (rooms b).name ∈ (rooms a).conns := by
  simp [neighbours]

theorem card_neighbours (rooms : Rooms) (hinv : GraphInv rooms) (a : Fin NUM_OF_ROOMS) :
    (neighbours rooms a).card = (rooms a).numConnections := by
  have himg : (neighbours rooms a).image (fun b => (rooms b).name) = (rooms a).conns.toFinset := by
    ext s
    simp only [Finset.mem_image, mem_neighbours, List.mem_toFinset]
    constructor
    · rintro ⟨b, hb, rfl⟩
      exact hb
    · intro hs
      obtain ⟨b, _, hname⟩ := hinv.target a s hs
      exact ⟨b, hname ▸ hs, hname⟩
  have hinj : Function.Injective fun b : Fin NUM_OF_ROOMS => (rooms b).name :=
    fun x y hxy => hinv.names_inj x y hxy
  rw [← Finset.card_image_of_injective _ hinj, himg,
    List.toFinset_card_of_nodup (hinv.nodup a), Room.length_conns _ (hinv.count_le a)]

theorem not_mem_neighbours_self (rooms : Rooms) (hinv : GraphInv rooms) (a : Fin NUM_OF_ROOMS) :
    a ∉ neighbours rooms a := by
  rw [mem_neighbours]
  intro hmem
  obtain ⟨b, hb, hname⟩ := hinv.target a _ hmem
  exact hb (hinv.names_inj b a hname)

theorem card_insert_neighbours (rooms : Rooms) (hinv : GraphInv rooms) (a : Fin NUM_OF_ROOMS) :
    (insert a (neighbours rooms a)).card = (rooms a).numConnections + 1 := by
  rw [Finset.card_insert_of_not_mem (not_mem_neighbours_self rooms hinv a),
    card_neighbours rooms hinv a]

/-- A room with a free slot has a partner: a different room, with a free slot too, to which
it is not connected. -/
theorem exists_partner (rooms : Rooms) (hinv : GraphInv rooms) (a : Fin NUM_OF_ROOMS)
    (ha : (rooms a).numConnections < 6) :
    ∃ b : Fin NUM_OF_ROOMS, b ≠ a ∧ (rooms b).numConnections < 6
      ∧ (rooms b).name ∉ (rooms a).conns := by
  have hex : ∃ b : Fin NUM_OF_ROOMS, b ∉ insert a (neighbours rooms a) := by
    by_contra hall
    push_neg at hall
    have huniv : insert a (neighbours rooms a) = Finset.univ :=
      Finset.eq_univ_iff_forall.mpr hall
    have hcard := card_insert_neighbours rooms hinv a
    rw [huniv, Finset.card_univ, Fintype.card_fin] at hcard
    have hN : NUM_OF_ROOMS = 7 := rfl
    omega
  obtain ⟨b, hb⟩ := hex
  rw [Finset.mem_insert, mem_neighbours] at hb
  push_neg at hb
  refine ⟨b, hb.1, ?_, hb.2⟩
  by_contra hfull
  have hb6 : (rooms b).numConnections = 6 := by
    have := hinv.count_le b
    have hM : MAX_CONNECTIONS = 6 := rfl
    omega
  have hcard := card_insert_neighbours rooms hinv b
  rw [hb6] at hcard
  have huniv : insert b (neighbours rooms b) = Finset.univ := by
    apply Finset.eq_univ_of_card
    rw [hcard, Fintype.card_fin]
  have hamem : a ∈ insert b (neighbours rooms b) := huniv ▸ Finset.mem_univ a
  rw [Finset.mem_insert, mem_neighbours] at hamem
  rcases hamem with h | h
  · exact hb.1 h.symm
  · exact hb.2 (hinv.symm b a h)

/-- With 7 rooms of 3 or more connections each, every room is reached from every room. -/
theorem reachable_of_full (rooms : Rooms) (hinv : GraphInv rooms)
    (hfull : ∀ i : Fin NUM_OF_ROOMS, 3 ≤ (rooms i).numConnections) (s t : Fin NUM_OF_ROOMS) :
    Reachable rooms s t := by
  classical
  by_contra hnot
  let S : Finset (Fin NUM_OF_ROOMS) := Finset.univ.filter fun i => Reachable rooms s i
  have hS : ∀ i, i ∈ S ↔ Reachable rooms s i := by
    intro i
    simp [S]
  have hsub : insert s (neighbours rooms s) ⊆ S := by
    intro i hi
    rw [Finset.mem_insert, mem_neighbours] at hi
    rw [hS]
    rcases hi with hi | hi
    · exact hi ▸ Reachable.here
    · exact Reachable.move s i Reachable.here hi
  have hdisj : Disjoint S (insert t (neighbours rooms t)) := by
    rw [Finset.disjoint_left]
    intro i hiS hiT
    rw [hS] at hiS
    rw [Finset.mem_insert, mem_neighbours] at hiT
    rcases hiT with hiT | hiT
    · exact hnot (hiT ▸ hiS)
    · exact hnot (Reachable.move i t hiS (hinv.symm t i hiT))
  have h1 : (rooms s).numConnections + 1 ≤ S.card := by
    rw [← card_insert_neighbours rooms hinv s]
    exact Finset.card_le_card hsub
  have h2 := card_insert_neighbours rooms hinv t
  have h3 : (S ∪ insert t (neighbours rooms t)).card
      = S.card + (insert t (neighbours rooms t)).card := Finset.card_union_of_disjoint hdisj
  have h4 : (S ∪ insert t (neighbours rooms t)).card ≤ 7 := by
    have := Finset.card_le_univ (S ∪ insert t (neighbours rooms t))
    rwa [Fintype.card_fin] at this
  have h5 := hfull s
  have h6 := hfull t
  omega

/-! ## Reachability of the end room, existence of a valid move -/

/-- C7: whatever the draws, in a graph the generator finishes with (a state produced by
`InitRooms` and calls of `AddRandomConnection` in which `IsGraphFull` is true) the end room
`rooms[6]` is reached from the start room `rooms[0]` by following connections. -/
theorem end_reachable_from_start (mem : Rooms) (k : Nat) (draws : List Nat) (rooms : Rooms)
    (rest : List Nat) (hrun : runCalls mem k draws = some (rooms, rest))
    (hfull : IsGraphFull rooms = true) : Reachable rooms 0 6 :=
  reachable_of_full rooms (GraphInv_runCalls mem rooms k draws rest hrun)
    ((IsGraphFull_iff rooms).mp hfull) 0 6

theorem end_reachable_from_start_witness :
    runCalls blankRooms 12 sampleDraws = some (sampleGraph, []) ∧
    IsGraphFull sampleGraph = true ∧ Reachable sampleGraph 0 6 :=
  ⟨rfl, rfl, end_reachable_from_start blankRooms 12 sampleDraws sampleGraph [] rfl rfl⟩

/-- C8: in every state that `InitRooms` and any number of calls of `AddRandomConnection`
produce, for every room A with fewer than 6 connections there is a room B, different from A,
with fewer than 6 connections and not yet connected to A.  So B fails the condition under
which the loop that chooses B draws again, and that loop returns B as soon as it draws it. -/
theorem valid_move_exists (mem : Rooms) (k : Nat) (draws : List Nat) (rooms : Rooms)
    (rest : List Nat) (hrun : runCalls mem k draws = some (rooms, rest))
    (a : Fin NUM_OF_ROOMS) (ha : (rooms a).numConnections < 6) :
    ∃ b : Fin NUM_OF_ROOMS, b ≠ a ∧ (rooms b).numConnections < 6 ∧
      (rooms b).name ∉ (rooms a).conns ∧
      ¬ ((rooms b).numConnections ≥ 6 ∨ a = b ∨
          ConnectionAlreadyExists (rooms a) (rooms b) = true) ∧
      ∀ more : List Nat,
        AddRandomConnection.selectB rooms a (b.val :: more) = some (b, more) := by
  obtain ⟨b, hba, hb, hnc⟩ :=
    exists_partner rooms (GraphInv_runCalls mem rooms k draws rest hrun) a ha
  have hexit : ¬ ((rooms b).numConnections ≥ 6 ∨ a = b ∨
      ConnectionAlreadyExists (rooms a) (rooms b) = true) := by
    rw [ConnectionAlreadyExists_iff]
    rintro (h | h | h)
    · omega
    · exact hba h.symm
    · exact hnc h
  refine ⟨b, hba, hb, hnc, hexit, ?_⟩
  intro more
  have hidx : randomIndex b.val = b := by
    apply Fin.ext
    show b.val % NUM_OF_ROOMS = b.val
    exact Nat.mod_eq_of_lt b.isLt
  simp only [AddRandomConnection.selectB, hidx]
  rw [if_neg hexit]

theorem valid_move_exists_witness :
    runCalls blankRooms 12 sampleDraws = some (sampleGraph, []) ∧
    (sampleGraph 4).numConnections < 6 ∧
    ∃ b : Fin NUM_OF_ROOMS, b ≠ 4 ∧ (sampleGraph b).numConnections < 6 ∧
      (sampleGraph b).name ∉ (sampleGraph 4).conns ∧
      ¬ ((sampleGraph b).numConnections ≥ 6 ∨ 4 = b ∨
          ConnectionAlreadyExists (sampleGraph 4) (sampleGraph b) = true) ∧
      ∀ more : List Nat,
        AddRandomConnection.selectB sampleGraph 4 (b.val :: more) = some (b, more) :=
  ⟨rfl, by decide, valid_move_exists blankRooms 12 sampleDraws sampleGraph [] rfl 4 (by decide)⟩

/-! ## The number of calls -/

theorem totalConnections_connect (rooms : Rooms) (a b : Fin NUM_OF_ROOMS) (hab : a ≠ b) :
    totalConnections (AddRandomConnection.connect rooms a b) = totalConnections rooms + 2 := by
  unfold totalConnections
  have hterm : ∀ c : Fin NUM_OF_ROOMS,
      (AddRandomConnection.connect rooms a b c).numConnections =
        (rooms c).numConnections + (if c = a ∨ c = b then 1 else 0) :=
    fun c => connect_numConnections rooms a b c hab
  simp only [hterm]
  rw [Finset.sum_add_distrib]
  congr 1
  rw [Finset.sum_boole]
  have hset : (Finset.univ.filter fun c : Fin NUM_OF_ROOMS => c = a ∨ c = b) = {a, b} := by
    ext c
    simp
  rw [hset, Finset.card_pair hab]
  rfl

theorem totalConnections_le (rooms : Rooms) (hinv : GraphInv rooms) :
    totalConnections rooms ≤ 42 := by
  unfold totalConnections
  have h := Finset.sum_le_sum (s := Finset.univ)
    (fun (i : Fin NUM_OF_ROOMS) _ => hinv.count_le i)
  simpa using h

theorem full_of_totalConnections (rooms : Rooms) (hinv : GraphInv rooms)
    (h : 42 ≤ totalConnections rooms) : IsGraphFull rooms = true := by
  rw [IsGraphFull_iff]
  intro i
  by_contra hlt
  have hM : MAX_CONNECTIONS = 6 := rfl
  have hsum : totalConnections rooms < ∑ _j : Fin NUM_OF_ROOMS, MAX_CONNECTIONS := by
    unfold totalConnections
    apply Finset.sum_lt_sum
    · intro j _
      exact hinv.count_le j
    · exact ⟨i, Finset.mem_univ i, by omega⟩
  simp at hsum
  have hN : NUM_OF_ROOMS * MAX_CONNECTIONS = 42 := rfl
  omega

theorem totalConnections_addConnections (k : Nat) :
    ∀ (rooms rooms1 : Rooms) (draws rest : List Nat),
    addConnections k rooms draws = some (rooms1, rest) →
    totalConnections rooms1 = totalConnections rooms + 2 * k := by
  induction k with
  | zero =>
    intro rooms rooms1 draws rest h
    simp only [addConnections, Option.some.injEq, Prod.mk.injEq] at h
    rw [← h.1]
    rfl
  | succ k ih =>
    intro rooms rooms1 draws rest h
    simp only [addConnections] at h
    split at h
    · simp at h
    · next r2 d2 h2 =>
      obtain ⟨a, b, _, _, hab, _, heq, _⟩ := AddRandomConnection_spec rooms r2 draws d2 h2
      rw [ih r2 rooms1 d2 rest h, heq, totalConnections_connect rooms a b hab]
      omega

theorem totalConnections_init (mem rooms : Rooms) (draws rest : List Nat)
    (h : InitRooms mem draws = some (rooms, rest)) : totalConnections rooms = 0 := by
  obtain ⟨_, _, hspec⟩ := InitRooms_spec mem rooms draws rest h
  unfold totalConnections
  exact Finset.sum_eq_zero fun i _ => (hspec i).2.1

/-- What the loop of `main` returns is a state that its calls of `AddRandomConnection`
produce, and `IsGraphFull` is true in it. -/
theorem mainLoop_spec (fuel : Nat) : ∀ (rooms rooms1 : Rooms) (draws : List Nat) (calls : Nat),
    mainLoop fuel rooms draws = some (rooms1, calls) →
    IsGraphFull rooms1 = true ∧ ∃ rest, addConnections calls rooms draws = some (rooms1, rest) := by
  induction fuel with
  | zero =>
    intro rooms rooms1 draws calls h
    unfold mainLoop at h
    split at h
    · next hf =>
      simp only [Option.some.injEq, Prod.mk.injEq] at h
      obtain ⟨h1, h2⟩ := h
      subst h1 h2
      exact ⟨hf, draws, rfl⟩
    · simp at h
  | succ fuel ih =>
    intro rooms rooms1 draws calls h
    unfold mainLoop at h
    split at h
    · next hf =>
      simp only [Option.some.injEq, Prod.mk.injEq] at h
      obtain ⟨h1, h2⟩ := h
      subst h1 h2
      exact ⟨hf, draws, rfl⟩
    · simp only at h
      split at h
      · simp at h
      · next r2 d2 h2 =>
        split at h
        · simp at h
        · next r3 c3 h3 =>
          simp only [Option.some.injEq, Prod.mk.injEq] at h
          obtain ⟨h4, h5⟩ := h
          subst h4 h5
          obtain ⟨hfull, rest, hadd⟩ := ih r2 r3 d2 c3 h3
          exact ⟨hfull, rest, by simp only [addConnections, h2]; exact hadd⟩

/-- The state in which the loop of `main` stops, started from the rooms that `InitRooms`
sets up, is a state of shape `runCalls` in which `IsGraphFull` is true. -/
theorem mainLoop_runCalls (mem rooms0 rooms : Rooms) (draws rest : List Nat) (fuel calls : Nat)
    (hinit : InitRooms mem draws = some (rooms0, rest))
    (hloop : mainLoop fuel rooms0 rest = some (rooms, calls)) :
    IsGraphFull rooms = true ∧ ∃ rest1, runCalls mem calls draws = some (rooms, rest1) := by
  obtain ⟨hfull, rest1, hadd⟩ := mainLoop_spec fuel rooms0 rooms rest calls hloop
  refine ⟨hfull, rest1, ?_⟩
  unfold runCalls
  rw [hinit]
  exact hadd

/-- A budget of calls that covers the edges still missing from the complete graph is as good
as any larger budget. -/
theorem mainLoop_budget (f1 : Nat) : ∀ (f2 : Nat) (rooms : Rooms) (draws : List Nat) (j : Nat),
    GraphInv rooms → totalConnections rooms = 2 * j → 21 ≤ f1 + j → 21 ≤ f2 + j →
    mainLoop f1 rooms draws = mainLoop f2 rooms draws := by
  induction f1 with
  | zero =>
    intro f2 rooms draws j hinv htot h1 _
    have hfull : IsGraphFull rooms = true :=
      full_of_totalConnections rooms hinv (by omega)
    unfold mainLoop
    simp [hfull]
  | succ f1 ih =>
    intro f2 rooms draws j hinv htot h1 h2
    cases f2 with
    | zero =>
      have hfull : IsGraphFull rooms = true :=
        full_of_totalConnections rooms hinv (by omega)
      unfold mainLoop
      simp [hfull]
    | succ f2 =>
      unfold mainLoop
      by_cases hfull : IsGraphFull rooms = true
      · simp [hfull]
      · simp only [hfull, if_false]
        cases hcall : AddRandomConnection rooms draws with
        | none => rfl
        | some p =>
          obtain ⟨r2, d2⟩ := p
          simp only
          obtain ⟨a, b, _, _, hab, _, heq, _⟩ := AddRandomConnection_spec rooms r2 draws d2 hcall
          have hinv2 := GraphInv_AddRandomConnection rooms r2 draws d2 hinv hcall
          have htot2 : totalConnections r2 = 2 * (j + 1) := by
            rw [heq, totalConnections_connect rooms a b hab, htot]
            omega
          rw [ih f2 r2 d2 (j + 1) hinv2 htot2 (by omega) (by omega)]

/-- Calls one after the other: `j + k` calls are `j` calls followed by `k` calls. -/
theorem addConnections_add (j k : Nat) : ∀ (rooms : Rooms) (draws : List Nat),
    addConnections (j + k) rooms draws =
      match addConnections j rooms draws with
      | none => none
      | some (rooms1, draws1) => addConnections k rooms1 draws1 := by
  induction j with
  | zero =>
    intro rooms draws
    rw [Nat.zero_add]
    rfl
  | succ j ih =>
    intro rooms draws
    rw [Nat.add_right_comm]
    simp only [addConnections]
    cases AddRandomConnection rooms draws with
    | none => rfl
    | some p => exact ih p.1 p.2

/-- A call of `AddRandomConnection` only adds connections, so it keeps `IsGraphFull` true. -/
theorem IsGraphFull_AddRandomConnection (rooms rooms1 : Rooms) (draws rest : List Nat)
    (h : AddRandomConnection rooms draws = some (rooms1, rest))
    (hfull : IsGraphFull rooms = true) : IsGraphFull rooms1 = true := by
  obtain ⟨a, b, _, _, hab, _, heq, _⟩ := AddRandomConnection_spec rooms rooms1 draws rest h
  rw [IsGraphFull_iff] at hfull ⊢
  intro i
  rw [heq, connect_numConnections rooms a b i hab]
  exact Nat.le_trans (hfull i) (Nat.le_add_right _ _)

theorem IsGraphFull_addConnections (k : Nat) : ∀ (rooms rooms1 : Rooms) (draws rest : List Nat),
    addConnections k rooms draws = some (rooms1, rest) → IsGraphFull rooms = true →
    IsGraphFull rooms1 = true := by
  induction k with
  | zero =>
    intro rooms rooms1 draws rest h hfull
    simp only [addConnections, Option.some.injEq, Prod.mk.injEq] at h
    exact h.1 ▸ hfull
  | succ k ih =>
    intro rooms rooms1 draws rest h hfull
    simp only [addConnections] at h
    split at h
    · simp at h
    · next r2 d2 h2 =>
      exact ih r2 rooms1 d2 rest h (IsGraphFull_AddRandomConnection rooms r2 draws d2 h2 hfull)

/-- On draws with which `n` calls return and end in a full graph, every call that starts from
a graph that is not full returns: such a call is one of the `n`. -/
theorem calls_return_of_full_run (n : Nat) (rooms0 roomsN : Rooms) (rest restN : List Nat)
    (hrun : addConnections n rooms0 rest = some (roomsN, restN))
    (hfull : IsGraphFull roomsN = true) :
    ∀ (k : Nat) (rooms1 : Rooms) (draws1 : List Nat),
      addConnections k rooms0 rest = some (rooms1, draws1) → IsGraphFull rooms1 = false →
      ∃ (rooms2 : Rooms) (draws2 : List Nat),
        AddRandomConnection rooms1 draws1 = some (rooms2, draws2) := by
  intro k rooms1 draws1 hk hnot
  by_cases hkn : n ≤ k
  · exfalso
    obtain ⟨j, rfl⟩ : ∃ j, k = n + j := ⟨k - n, by omega⟩
    rw [addConnections_add, hrun] at hk
    have := IsGraphFull_addConnections j roomsN rooms1 restN draws1 hk hfull
    rw [this] at hnot
    exact absurd hnot (by decide)
  · obtain ⟨m, rfl⟩ : ∃ m, n = k + (m + 1) := ⟨n - k - 1, by omega⟩
    rw [addConnections_add, hk] at hrun
    simp only [addConnections] at hrun
    cases hcall : AddRandomConnection rooms1 draws1 with
    | none => rw [hcall] at hrun; simp at hrun
    | some p => exact ⟨p.1, p.2, rfl⟩

/-- Before each of the calls that the loop of `main` makes, the graph is not full. -/
theorem mainLoop_not_full_before (fuel : Nat) :
    ∀ (rooms rooms1 : Rooms) (draws : List Nat) (calls : Nat),
    mainLoop fuel rooms draws = some (rooms1, calls) →
    ∀ k : Nat, k < calls → ∃ (r : Rooms) (d : List Nat),
      addConnections k rooms draws = some (r, d) ∧ IsGraphFull r = false := by
  induction fuel with
  | zero =>
    intro rooms rooms1 draws calls h k hk
    unfold mainLoop at h
    split at h
    · simp only [Option.some.injEq, Prod.mk.injEq] at h
      omega
    · simp at h
  | succ fuel ih =>
    intro rooms rooms1 draws calls h k hk
    unfold mainLoop at h
    split at h
    · simp only [Option.some.injEq, Prod.mk.injEq] at h
      omega
    · next hfull =>
      simp only at h
      split at h
      · simp at h
      · next r2 d2 h2 =>
        split at h
        · simp at h
        · next r3 c3 h3 =>
          simp only [Option.some.injEq, Prod.mk.injEq] at h
          obtain ⟨_, h5⟩ := h
          cases k with
          | zero => exact ⟨rooms, draws, rfl, by simpa using hfull⟩
          | succ k =>
            obtain ⟨r, d, hadd, hnf⟩ := ih r2 r3 d2 c3 h3 k (by omega)
            exact ⟨r, d, by simp only [addConnections, h2]; exact hadd, hnf⟩

/-- Within a budget that covers the edges still missing from the complete graph, the loop of
`main` fails to return only when one of the calls of `AddRandomConnection` that it makes, from a
graph that is not full, does not return. -/
theorem mainLoop_none (fuel : Nat) : ∀ (rooms : Rooms) (draws : List Nat) (j : Nat),
    GraphInv rooms → totalConnections rooms = 2 * j → 21 ≤ fuel + j →
    mainLoop fuel rooms draws = none →
    ∃ (k : Nat) (rooms1 : Rooms) (draws1 : List Nat),
      addConnections k rooms draws = some (rooms1, draws1) ∧
      IsGraphFull rooms1 = false ∧
      AddRandomConnection rooms1 draws1 = none := by
  induction fuel with
  | zero =>
    intro rooms draws j hinv htot h1 h
    have hfull : IsGraphFull rooms = true :=
      full_of_totalConnections rooms hinv (by omega)
    unfold mainLoop at h
    simp [hfull] at h
  | succ fuel ih =>
    intro rooms draws j hinv htot h1 h
    unfold mainLoop at h
    by_cases hfull : IsGraphFull rooms = true
    · simp [hfull] at h
    · simp only [hfull, if_false] at h
      cases hcall : AddRandomConnection rooms draws with
      | none => exact ⟨0, rooms, draws, rfl, by simpa using hfull, hcall⟩
      | some p =>
        obtain ⟨r2, d2⟩ := p
        rw [hcall] at h
        simp only at h
        obtain ⟨a, b, _, _, hab, _, heq, _⟩ := AddRandomConnection_spec rooms r2 draws d2 hcall
        have hinv2 := GraphInv_AddRandomConnection rooms r2 draws d2 hinv hcall
        have htot2 : totalConnections r2 = 2 * (j + 1) := by
          rw [heq, totalConnections_connect rooms a b hab, htot]
          omega
        have hrec : mainLoop fuel r2 d2 = none := by
          cases hm : mainLoop fuel r2 d2 with
          | none => rfl
          | some q => rw [hm] at h; simp at h
        obtain ⟨k, r3, d3, hadd, hnf, hnone⟩ := ih r2 d2 (j + 1) hinv2 htot2 (by omega) hrec
        exact ⟨k + 1, r3, d3, by simp only [addConnections, hcall]; exact hadd, hnf, hnone⟩

/-- C9: start from the rooms that `InitRooms` sets up, on draws with which each call of
`AddRandomConnection` returns that is made from a graph that is not yet full (the calls that
the loop of `main` makes).  Then the loop of `main` returns: it stops after a number of calls
that is at most 21, in the graph that these calls produce, in which `IsGraphFull` is true,
while it was false before each of the calls; a budget of 21 calls is enough for it, and a
larger one changes nothing.  More generally, no run of calls that all return has more than 21
calls, and after 21 such calls `IsGraphFull` is true. -/
theorem generation_bounded (mem rooms0 : Rooms) (draws rest : List Nat)
    (hinit : InitRooms mem draws = some (rooms0, rest))
    (hreturns : ∀ (k : Nat) (rooms1 : Rooms) (draws1 : List Nat),
      addConnections k rooms0 rest = some (rooms1, draws1) → IsGraphFull rooms1 = false →
      ∃ (rooms2 : Rooms) (draws2 : List Nat),
        AddRandomConnection rooms1 draws1 = some (rooms2, draws2)) :
    ∃ (rooms : Rooms) (calls : Nat) (rest1 : List Nat),
      mainLoop 21 rooms0 rest = some (rooms, calls) ∧ calls ≤ 21 ∧
      IsGraphFull rooms = true ∧
      addConnections calls rooms0 rest = some (rooms, rest1) ∧
      (∀ k : Nat, k < calls → ∃ (r : Rooms) (d : List Nat),
        addConnections k rooms0 rest = some (r, d) ∧ IsGraphFull r = false) ∧
      (∀ fuel : Nat, 21 ≤ fuel → mainLoop fuel rooms0 rest = some (rooms, calls)) ∧
      (∀ (k : Nat) (roomsK : Rooms) (restK : List Nat),
        addConnections k rooms0 rest = some (roomsK, restK) →
        k ≤ 21 ∧ (k = 21 → IsGraphFull roomsK = true)) := by
  have hinv0 := GraphInv_init mem rooms0 draws rest hinit
  have htot0 := totalConnections_init mem rooms0 draws rest hinit
  have hruns : ∀ (k : Nat) (roomsK : Rooms) (restK : List Nat),
      addConnections k rooms0 rest = some (roomsK, restK) →
      k ≤ 21 ∧ (k = 21 → IsGraphFull roomsK = true) := by
    intro k roomsK restK hadd
    have hinv := GraphInv_addConnections k rooms0 roomsK rest restK hinv0 hadd
    have htot := totalConnections_addConnections k rooms0 roomsK rest restK hadd
    have hle := totalConnections_le roomsK hinv
    refine ⟨by omega, fun hk => full_of_totalConnections roomsK hinv (by omega)⟩
  cases hloop : mainLoop 21 rooms0 rest with
  | none =>
    exfalso
    obtain ⟨k, rooms1, draws1, hadd, hnf, hnone⟩ :=
      mainLoop_none 21 rooms0 rest 0 hinv0 (by rw [htot0]) (by omega) hloop
    obtain ⟨rooms2, draws2, hcall⟩ := hreturns k rooms1 draws1 hadd hnf
    rw [hcall] at hnone
    simp at hnone
  | some p =>
    obtain ⟨rooms, calls⟩ := p
    obtain ⟨hfull, rest1, hadd⟩ := mainLoop_spec 21 rooms0 rooms rest calls hloop
    refine ⟨rooms, calls, rest1, rfl, (hruns calls rooms rest1 hadd).1, hfull, hadd,
      mainLoop_not_full_before 21 rooms0 rooms rest calls hloop, ?_, hruns⟩
    intro fuel hfuel
    rw [mainLoop_budget fuel 21 rooms0 rest 0 hinv0 (by rw [htot0]) (by omega) (by omega)]
    exact hloop

theorem generation_bounded_witness :
    InitRooms blankRooms sampleDraws = some (sampleStart, sampleDraws.drop 9) ∧
    addConnections 12 sampleStart (sampleDraws.drop 9) = some (sampleGraph, []) ∧
    IsGraphFull sampleGraph = true ∧
    mainLoop 21 sampleStart (sampleDraws.drop 9) = some (sampleGraph, 12) ∧
    ∃ (rooms : Rooms) (calls : Nat) (rest1 : List Nat),
      mainLoop 21 sampleStart (sampleDraws.drop 9) = some (rooms, calls) ∧ calls ≤ 21 ∧
      IsGraphFull rooms = true ∧
      addConnections calls sampleStart (sampleDraws.drop 9) = some (rooms, rest1) ∧
      (∀ k : Nat, k < calls → ∃ (r : Rooms) (d : List Nat),
        addConnections k sampleStart (sampleDraws.drop 9) = some (r, d) ∧
        IsGraphFull r = false) ∧
      (∀ fuel : Nat, 21 ≤ fuel →
        mainLoop fuel sampleStart (sampleDraws.drop 9) = some (rooms, calls)) ∧
      (∀ (k : Nat) (roomsK : Rooms) (restK : List Nat),
        addConnections k sampleStart (sampleDraws.drop 9) = some (roomsK, restK) →
        k ≤ 21 ∧ (k = 21 → IsGraphFull roomsK = true)) :=
  ⟨rfl, rfl, rfl, rfl,
    generation_bounded blankRooms sampleStart sampleDraws (sampleDraws.drop 9) rfl
      (calls_return_of_full_run 12 sampleStart sampleGraph (sampleDraws.drop 9) [] rfl rfl)⟩

/-! ## The swap index of `Shuffle` -/

/-- In the pass of `Shuffle` for the index `i`, the entry that lands at `i` is the one at
`rand() % i`, an index below `i`: the entry at `i` is never left in place. -/
theorem swapStep_getD (arr : List Int) (i r : Nat) (h0 : 0 < i) (hi : i < arr.length) :
    (Shuffle.swapStep arr i r).getD i 0 = arr.getD (r % i) 0 ∧ r % i < i := by
  have hj : r % i < i := Nat.mod_lt r h0
  refine ⟨?_, hj⟩
  unfold Shuffle.swapStep
  have hlen : i < ((arr.set i (arr.getD (r % i) 0)).set (r % i) (arr.getD i 0)).length := by
    simpa using hi
  rw [List.getD_eq_getElem _ _ hlen, List.getElem_set_ne (by omega), List.getElem_set_self]

/-- With pairwise distinct entries, a pass of `Shuffle` never returns the array as it was,
which the pass of a Fisher-Yates shuffle does when it draws `j = i`. -/
theorem swapStep_ne_self (arr : List Int) (i r : Nat) (h0 : 0 < i) (hi : i < arr.length)
    (hnd : arr.Nodup) : Shuffle.swapStep arr i r ≠ arr := by
  intro heq
  obtain ⟨hget, hj⟩ := swapStep_getD arr i r h0 hi
  rw [heq, List.getD_eq_getElem _ _ hi, List.getD_eq_getElem _ _ (by omega)] at hget
  have := (List.Nodup.getElem_inj_iff hnd).mp hget
  omega

/-- C21 fails on the code: the swap index is `rand() % i`, which is never `i`.  For the array
`{10, 20}` the only pass has `i = 1`, and every draw gives `j = 0`: the two entries are
always swapped, and the order `10, 20`, which needs `j = 1`, is never returned.  For
`{10, 20, 30}` the pass with `i = 2` never leaves the array as it is, for any draw. -/
theorem Shuffle_never_draws_i :
    (∀ r : Nat, Shuffle [10, 20] 2 [r] = some ([20, 10], [])) ∧
    (∀ r : Nat, Shuffle.swapStep [10, 20, 30] 2 r ≠ [10, 20, 30]) := by
  constructor
  · intro r
    simp [Shuffle, Shuffle.loop, Shuffle.swapStep, Nat.mod_one]
  · intro r
    exact swapStep_ne_self [10, 20, 30] 2 r (by decide) (by decide) (by decide)

/-! ## The effect of one call, and the bounds of its stores -/

/-- The slots of a room after `Room.addConnection`, when the count is within the array: the
slot at the count holds the new name, the other slots are as they were. -/
theorem addConnection_connections (r : Room) (s : String)
    (h : r.numConnections < MAX_CONNECTIONS) (i : Fin MAX_CONNECTIONS) :
    (r.addConnection s).connections i = if i.val = r.numConnections then s else r.connections i := by
  unfold Room.addConnection
  simp only [h, dif_pos]
  by_cases hi : i.val = r.numConnections
  · have : i = ⟨r.numConnections, h⟩ := Fin.ext hi
    rw [if_pos hi, this, Function.update_same]
  · have : i ≠ ⟨r.numConnections, h⟩ := fun hc => hi (congrArg Fin.val hc)
    rw [if_neg hi, Function.update_noteq this]

/-- C24: every call of `AddRandomConnection` that returns has picked two distinct rooms `a`
and `b`; it increases `numConnections` of each by exactly 1 and stores the name of the other
at the end of the list of each; every other room is left as it was, every room keeps its
name and type, and every connection entry stored before the call is unchanged. -/
theorem AddRandomConnection_adds_one_edge (rooms rooms1 : Rooms) (draws rest : List Nat)
    (h : AddRandomConnection rooms draws = some (rooms1, rest)) :
    ∃ a b : Fin NUM_OF_ROOMS, a ≠ b ∧
      (rooms1 a).numConnections = (rooms a).numConnections + 1 ∧
      (rooms1 b).numConnections = (rooms b).numConnections + 1 ∧
      (rooms1 a).conns = (rooms a).conns ++ [(rooms b).name] ∧
      (rooms1 b).conns = (rooms b).conns ++ [(rooms a).name] ∧
      (∀ c : Fin NUM_OF_ROOMS, c ≠ a → c ≠ b →
        (rooms1 c).connections = (rooms c).connections ∧
        (rooms1 c).numConnections = (rooms c).numConnections) ∧
      (∀ c : Fin NUM_OF_ROOMS,
        (rooms1 c).name = (rooms c).name ∧ (rooms1 c).type = (rooms c).type) ∧
      (∀ (c : Fin NUM_OF_ROOMS) (i : Fin MAX_CONNECTIONS), i.val < (rooms c).numConnections →
        (rooms1 c).connections i = (rooms c).connections i) := by
  obtain ⟨a, b, ha, hb, hab, _, heq, _⟩ := AddRandomConnection_spec rooms rooms1 draws rest h
  subst heq
  have hba : b ≠ a := Ne.symm hab
  have hA : AddRandomConnection.connect rooms a b a = (rooms a).addConnection (rooms b).name := by
    rw [connect_apply rooms a b a hab, if_pos rfl]
  have hB : AddRandomConnection.connect rooms a b b = (rooms b).addConnection (rooms a).name := by
    rw [connect_apply rooms a b b hab, if_neg hba, if_pos rfl]
  have hC : ∀ c : Fin NUM_OF_ROOMS, c ≠ a → c ≠ b →
      AddRandomConnection.connect rooms a b c = rooms c := by
    intro c hca hcb
    rw [connect_apply rooms a b c hab, if_neg hca, if_neg hcb]
  refine ⟨a, b, hab, by rw [hA]; rfl, by rw [hB]; rfl, ?_, ?_, ?_, ?_, ?_⟩
  · rw [hA]
    exact Room.conns_addConnection _ _ ha
  · rw [hB]
    exact Room.conns_addConnection _ _ hb
  · intro c hca hcb
    rw [hC c hca hcb]
    exact ⟨rfl, rfl⟩
  · intro c
    exact ⟨connect_name rooms a b c hab, connect_type rooms a b c hab⟩
  · intro c i hi
    by_cases hca : c = a
    · subst hca
      rw [hA, addConnection_connections _ _ ha, if_neg (by omega)]
    · by_cases hcb : c = b
      · subst hcb
        rw [hB, addConnection_connections _ _ hb, if_neg (by omega)]
      · rw [hC c hca hcb]

theorem AddRandomConnection_adds_one_edge_witness :
    AddRandomConnection sampleGraph [3, 4]
      = some (AddRandomConnection.connect sampleGraph 3 4, []) ∧
    ∃ a b : Fin NUM_OF_ROOMS, a ≠ b ∧
      (AddRandomConnection.connect sampleGraph 3 4 a).numConnections
        = (sampleGraph a).numConnections + 1 ∧
      (AddRandomConnection.connect sampleGraph 3 4 b).numConnections
        = (sampleGraph b).numConnections + 1 ∧
      (AddRandomConnection.connect sampleGraph 3 4 a).conns
        = (sampleGraph a).conns ++ [(sampleGraph b).name] ∧
      (AddRandomConnection.connect sampleGraph 3 4 b).conns
        = (sampleGraph b).conns ++ [(sampleGraph a).name] ∧
      (∀ c : Fin NUM_OF_ROOMS, c ≠ a → c ≠ b →
        (AddRandomConnection.connect sampleGraph 3 4 c).connections = (sampleGraph c).connections ∧
        (AddRandomConnection.connect sampleGraph 3 4 c).numConnections
          = (sampleGraph c).numConnections) ∧
      (∀ c : Fin NUM_OF_ROOMS,
        (AddRandomConnection.connect sampleGraph 3 4 c).name = (sampleGraph c).name ∧
        (AddRandomConnection.connect sampleGraph 3 4 c).type = (sampleGraph c).type) ∧
      (∀ (c : Fin NUM_OF_ROOMS) (i : Fin MAX_CONNECTIONS),
        i.val < (sampleGraph c).numConnections →
        (AddRandomConnection.connect sampleGraph 3 4 c).connections i
          = (sampleGraph c).connections i) :=
  ⟨rfl, AddRandomConnection_adds_one_edge sampleGraph _ [3, 4] [] rfl⟩

/-- C25: in every state that `InitRooms` and any number of calls of `AddRandomConnection`
produce, no room has more than 6 connections; and when the two loops of a further call have
chosen the rooms `a` and `b`, the first store goes to the index `roomA->numConnections` and
the second, after the first, to the index `roomB->numConnections`, both strictly below
`MAX_CONNECTIONS`: the stores stay within the array, and so do the reads of
`ConnectionAlreadyExists`, which stop below `numConnections`. -/
theorem stores_within_array (mem : Rooms) (k : Nat) (draws : List Nat) (rooms : Rooms)
    (rest : List Nat) (hrun : runCalls mem k draws = some (rooms, rest))
    (draws1 : List Nat) (a b : Fin NUM_OF_ROOMS) (draws2 draws3 : List Nat)
    (hA : AddRandomConnection.selectA rooms draws1 = some (a, draws2))
    (hB : AddRandomConnection.selectB rooms a draws2 = some (b, draws3)) :
    (∀ c : Fin NUM_OF_ROOMS, (rooms c).numConnections ≤ 6) ∧
    (rooms a).numConnections < MAX_CONNECTIONS ∧
    (Function.update rooms a ((rooms a).addConnection (rooms b).name) b).numConnections
      < MAX_CONNECTIONS ∧
    (∀ c : Fin NUM_OF_ROOMS,
      (AddRandomConnection.connect rooms a b c).numConnections ≤ 6) := by
  have hinv := GraphInv_runCalls mem rooms k draws rest hrun
  obtain ⟨ha, _⟩ := selectA_spec rooms draws1 a draws2 hA
  obtain ⟨hb, hab, hnc, _⟩ := selectB_spec rooms a draws2 b draws3 hB
  refine ⟨hinv.count_le, ha, ?_, (GraphInv_connect rooms a b hinv ha hb hab hnc).count_le⟩
  rw [Function.update_noteq (Ne.symm hab)]
  exact hb

theorem stores_within_array_witness :
    runCalls blankRooms 12 sampleDraws = some (sampleGraph, []) ∧
    AddRandomConnection.selectA sampleGraph [3, 4] = some (3, [4]) ∧
    AddRandomConnection.selectB sampleGraph 3 [4] = some (4, []) ∧
    (∀ c : Fin NUM_OF_ROOMS, (sampleGraph c).numConnections ≤ 6) ∧
    (sampleGraph 3).numConnections < MAX_CONNECTIONS ∧
    (Function.update sampleGraph 3 ((sampleGraph 3).addConnection (sampleGraph 4).name)
      4).numConnections < MAX_CONNECTIONS ∧
    (∀ c : Fin NUM_OF_ROOMS,
      (AddRandomConnection.connect sampleGraph 3 4 c).numConnections ≤ 6) :=
  ⟨rfl, rfl, rfl,
    stores_within_array blankRooms 12 sampleDraws sampleGraph [] rfl [3, 4] 3 4 [4] [] rfl rfl⟩

end BuildRooms

namespace Adventure

open BuildRooms

/-! ## Reading back what `MakeRoomFile` wrote -/

theorem fgets_text (n : Nat) : ∀ (l rest : List Char), l.length < n → '\n' ∉ l →
    fgets n (l ++ '\n' :: rest) = (l ++ ['\n'], rest) := by
  induction n with
  | zero => intro l rest h; simp at h
  | succ n ih =>
    intro l rest hlen hnl
    cases l with
    | nil => simp [fgets]
    | cons c l =>
      have hc : c ≠ '\n' := fun h => hnl (h ▸ List.mem_cons_self _ _)
      have hl : '\n' ∉ l := fun h => hnl (List.mem_cons_of_mem _ h)
      have h := ih l rest (by simpa using hlen) hl
      show fgets (n + 1) (c :: (l ++ '\n' :: rest)) = (c :: (l ++ ['\n']), rest)
      simp only [fgets, hc, if_false, h]

theorem stripNewline_text (l : List Char) (hnl : '\n' ∉ l) : stripNewline (l ++ ['\n']) = l := by
  unfold stripNewline
  induction l with
  | nil => simp [List.takeWhile]
  | cons c l ih =>
    have hc : c ≠ '\n' := fun h => hnl (h ▸ List.mem_cons_self _ _)
    have hl : '\n' ∉ l := fun h => hnl (List.mem_cons_of_mem _ h)
    rw [List.cons_append, List.takeWhile_cons_of_pos (by simpa using hc), ih hl]

theorem readLine_text (l rest : List Char) (hlen : l.length < 99) (hnl : '\n' ∉ l) :
    readLine (l ++ '\n' :: rest) = (l, rest) := by
  unfold readLine
  rw [show STR_BUFFER - 1 = 99 from rfl, fgets_text 99 l rest hlen hnl]
  simp only [stripNewline_text l hnl]

theorem lastWord_none (w : List Char) (hw : ' ' ∉ w) : lastWord w = none := by
  induction w with
  | nil => rfl
  | cons c w ih =>
    have hc : c ≠ ' ' := fun h => hw (h ▸ List.mem_cons_self _ _)
    have hl : ' ' ∉ w := fun h => hw (List.mem_cons_of_mem _ h)
    simp [lastWord, ih hl, hc]

theorem lastWord_text (pre w : List Char) (hw : ' ' ∉ w) :
    lastWord (pre ++ ' ' :: w) = some w := by
  induction pre with
  | nil => simp [lastWord, lastWord_none w hw]
  | cons c pre ih => simp [lastWord, ih]

theorem snprintf_data (text : String) (h : text.length ≤ 99) :
    (snprintf text).data = text.data := by
  unfold snprintf
  exact List.take_of_length_le h

theorem toString_digit (i : Nat) (h1 : 1 ≤ i) (h6 : i ≤ 6) :
    '\n' ∉ (toString i).data ∧ (toString i).data.length = 1 := by
  interval_cases i <;> decide

theorem foldl_addConnection (cs : List String) : ∀ room : Room,
    room.numConnections + cs.length ≤ 6 →
    (cs.foldl Room.addConnection room).conns = room.conns ++ cs ∧
    (cs.foldl Room.addConnection room).numConnections = room.numConnections + cs.length ∧
    (cs.foldl Room.addConnection room).name = room.name ∧
    (cs.foldl Room.addConnection room).type = room.type := by
  induction cs with
  | nil => intro room _; simp
  | cons c cs ih =>
    intro room h
    simp only [List.length_cons] at h
    have hstep : (room.addConnection c).numConnections = room.numConnections + 1 := rfl
    obtain ⟨h1, h2, h3, h4⟩ := ih (room.addConnection c) (by rw [hstep]; omega)
    have hc := Room.conns_addConnection room c (by show room.numConnections < 6; omega)
    simp only [List.foldl_cons, List.length_cons]
    refine ⟨?_, ?_, ?_, ?_⟩
    · rw [h1, hc]; simp
    · rw [h2, hstep]; omega
    · rw [h3]; rfl
    · rw [h4]; rfl

/-- Reading a line that `snprintf` formatted without cutting it. -/
theorem readLine_formatted (l : List Char) (text : String) (rest : List Char)
    (hdata : text.data = l ++ ['\n']) (hlen : l.length < 99) (hnl : '\n' ∉ l) :
    readLine ((snprintf text).data ++ rest) = (l, rest) := by
  have htext : text.length ≤ 99 := by
    show text.data.length ≤ 99
    rw [hdata, List.length_append, List.length_singleton]
    omega
  rw [snprintf_data text htext, hdata, List.append_assoc]
  exact readLine_text l rest hlen hnl

/-- The characters of a line `CONNECTION i: c` as `MakeRoomFile` formats it. -/
theorem connectionLine_data (i : Nat) (c : String) :
    ("CONNECTION " ++ toString i ++ ": " ++ c ++ "\n").data =
      ('C' :: ("ONNECTION ".data ++ (toString i).data ++ [':']) ++ ' ' :: c.data) ++ ['\n'] := by
  simp only [String.data_append]
  simp

theorem typeLine_data (t : Types) :
    ("ROOM TYPE: " ++ types t ++ "\n").data =
      ('R' :: "OOM TYPE:".data ++ ' ' :: (types t).data) ++ ['\n'] := by
  simp only [String.data_append]
  simp

theorem nameLine_data (name : String) :
    ("ROOM NAME: " ++ name ++ "\n").data =
      ("ROOM NAME:".data ++ ' ' :: name.data) ++ ['\n'] := by
  simp only [String.data_append]
  simp

theorem types_data (t : Types) :
    ' ' ∉ (types t).data ∧ '\n' ∉ (types t).data ∧ (types t).data.length ≤ 10 := by
  cases t <;> decide

theorem readLine_typeLine (t : Types) :
    readLine ((snprintf ("ROOM TYPE: " ++ types t ++ "\n")).data)
      = ('R' :: "OOM TYPE:".data ++ ' ' :: (types t).data, []) := by
  obtain ⟨_, ht2, ht3⟩ := types_data t
  have h := readLine_formatted ('R' :: "OOM TYPE:".data ++ ' ' :: (types t).data)
    ("ROOM TYPE: " ++ types t ++ "\n") [] (typeLine_data t)
    (by
      have h9 : ('R' :: "OOM TYPE:".data).length = 10 := rfl
      rw [List.length_append, h9, List.length_cons]
      omega)
    (by
      have h9 : '\n' ∉ 'R' :: "OOM TYPE:".data := by decide
      intro hmem
      rcases List.mem_append.mp hmem with h | h
      · exact h9 h
      · rcases List.mem_cons.mp h with h | h
        · exact absurd h (by decide)
        · exact ht2 h)
  rwa [List.append_nil] at h

theorem readLine_connectionLine (i : Nat) (c : String) (rest : List Char) (h1 : 1 ≤ i)
    (h6 : i ≤ 6) (hc : fitsFormat c) :
    readLine ((snprintf ("CONNECTION " ++ toString i ++ ": " ++ c ++ "\n")).data ++ rest)
      = ('C' :: ("ONNECTION ".data ++ (toString i).data ++ [':']) ++ ' ' :: c.data, rest) := by
  obtain ⟨hd1, hd2⟩ := toString_digit i h1 h6
  obtain ⟨_, _, hcnl, hclen⟩ := hc
  have hclen1 : c.data.length ≤ 8 := hclen
  apply readLine_formatted _ _ rest (connectionLine_data i c)
  · have h10 : "ONNECTION ".data.length = 10 := rfl
    simp only [List.length_append, List.length_cons, List.length_nil, h10, hd2]
    omega
  · have h10 : '\n' ∉ "ONNECTION ".data := by decide
    intro hmem
    rcases List.mem_append.mp hmem with h | h
    · rcases List.mem_cons.mp h with h | h
      · exact absurd h (by decide)
      · rcases List.mem_append.mp h with h | h
        · rcases List.mem_append.mp h with h | h
          · exact h10 h
          · exact hd1 h
        · exact absurd (List.mem_singleton.mp h) (by decide)
    · rcases List.mem_cons.mp h with h | h
      · exact absurd h (by decide)
      · exact hcnl h

/-- The loop that reads the connection lines reads back the names that the loop of
`MakeRoomFile` wrote, in order, and stops on the line of the room type. -/
theorem connectionLoop_connectionLines (t : Types) (cs : List String) :
    ∀ (i : Nat) (room : Room) (fuel : Nat), cs.length ≤ fuel → 1 ≤ i → i + cs.length ≤ 7 →
    (∀ c ∈ cs, fitsFormat c) →
    InitRooms.connectionLoop fuel room
        (readLine ((MakeRoomFile.connectionLines i cs).data
          ++ (snprintf ("ROOM TYPE: " ++ types t ++ "\n")).data)).1
        (readLine ((MakeRoomFile.connectionLines i cs).data
          ++ (snprintf ("ROOM TYPE: " ++ types t ++ "\n")).data)).2
      = some (cs.foldl Room.addConnection room,
          'R' :: "OOM TYPE:".data ++ ' ' :: (types t).data) := by
  induction cs with
  | nil =>
    intro i room fuel _ _ _ _
    have hread : readLine ((MakeRoomFile.connectionLines i []).data
          ++ (snprintf ("ROOM TYPE: " ++ types t ++ "\n")).data)
        = ('R' :: "OOM TYPE:".data ++ ' ' :: (types t).data, []) := by
      show readLine ([] ++ _) = _
      rw [List.nil_append]
      exact readLine_typeLine t
    rw [hread]
    unfold InitRooms.connectionLoop
    simp
  | cons c cs ih =>
    intro i room fuel hfuel hi1 hi7 hfit
    simp only [List.length_cons] at hfuel hi7
    have hcfit : fitsFormat c := hfit c (List.mem_cons_self _ _)
    have hread : readLine ((MakeRoomFile.connectionLines i (c :: cs)).data
          ++ (snprintf ("ROOM TYPE: " ++ types t ++ "\n")).data)
        = ('C' :: ("ONNECTION ".data ++ (toString i).data ++ [':']) ++ ' ' :: c.data,
            (MakeRoomFile.connectionLines (i + 1) cs).data
              ++ (snprintf ("ROOM TYPE: " ++ types t ++ "\n")).data) := by
      simp only [MakeRoomFile.connectionLines, String.data_append, List.append_assoc]
      exact readLine_connectionLine i c _ hi1 (by omega) hcfit
    rw [hread]
    obtain ⟨fuel1, rfl⟩ : ∃ f, fuel = f + 1 := ⟨fuel - 1, by omega⟩
    have hword : lastWord ('C' :: ("ONNECTION ".data ++ (toString i).data ++ [':'])
        ++ ' ' :: c.data) = some c.data := lastWord_text _ _ hcfit.2.1
    have hih := ih (i + 1) (room.addConnection c) fuel1 (by omega) (by omega) (by omega)
      (fun c1 hc1 => hfit c1 (List.mem_cons_of_mem _ hc1))
    unfold InitRooms.connectionLoop
    simp only [hword]
    simpa using hih

/-- C10: take a room with at most 6 connections, any type, and a name and connection names
that are not empty, hold no space and no newline and have at most 8 characters.  Reading
the text that `MakeRoomFile` writes for it, with the logic that `InitRooms` of the game
applies to one file, returns a room with the same name, the same connections in the same
order, the same `numConnections` and the same type (and the start room is recognised),
whatever the room record held before. -/
theorem room_file_round_trip (room mem : Room) (hname : fitsFormat room.name)
    (hconns : ∀ c ∈ room.conns, fitsFormat c) (hcount : room.numConnections ≤ MAX_CONNECTIONS) :
    ∃ (room1 : Room) (isStart : Bool),
      InitRooms.readRoomFile mem (MakeRoomFile room) = some (room1, isStart) ∧
      room1.name = room.name ∧ room1.conns = room.conns ∧
      room1.numConnections = room.numConnections ∧ room1.type = room.type ∧
      (isStart = true ↔ room.type = Types.START_ROOM) := by
  obtain ⟨_, hnsp, hnnl, hnlen⟩ := hname
  have hnlen1 : room.name.data.length ≤ 8 := hnlen
  have hlenc : room.conns.length = room.numConnections := Room.length_conns room hcount
  have hM : MAX_CONNECTIONS = 6 := rfl
  -- the name line
  have hl9 : "ROOM NAME:".data.length = 10 := rfl
  have hread1 : readLine (MakeRoomFile room).data
      = ("ROOM NAME:".data ++ ' ' :: room.name.data,
          (MakeRoomFile.connectionLines 1 room.conns).data
            ++ (snprintf ("ROOM TYPE: " ++ types room.type ++ "\n")).data) := by
    simp only [MakeRoomFile, String.data_append, List.append_assoc]
    apply readLine_formatted _ _ _ (nameLine_data room.name)
    · simp only [List.length_append, List.length_cons, hl9]
      omega
    · have h9 : '\n' ∉ "ROOM NAME:".data := by decide
      intro hmem
      rcases List.mem_append.mp hmem with h | h
      · exact h9 h
      · rcases List.mem_cons.mp h with h | h
        · exact absurd h (by decide)
        · exact hnnl h
  have hword1 : lastWord ("ROOM NAME:".data ++ ' ' :: room.name.data) = some room.name.data :=
    lastWord_text _ _ hnsp
  -- enough passes for the loop
  have hfuel : room.conns.length ≤ (MakeRoomFile room).length := by
    have hfile : (MakeRoomFile room).length
        = (snprintf ("ROOM NAME: " ++ room.name ++ "\n")).data.length
          + ((MakeRoomFile.connectionLines 1 room.conns).data
              ++ (snprintf ("ROOM TYPE: " ++ types room.type ++ "\n")).data).length := by
      show (MakeRoomFile room).data.length = _
      simp only [MakeRoomFile, String.data_append, List.append_assoc, List.length_append]
    have hline : (snprintf ("ROOM NAME: " ++ room.name ++ "\n")).data.length
        = room.name.data.length + 12 := by
      rw [snprintf_data, nameLine_data]
      · simp only [List.length_append, List.length_cons, List.length_nil, hl9]
        omega
      · show ("ROOM NAME: " ++ room.name ++ "\n").data.length ≤ 99
        rw [nameLine_data]
        simp only [List.length_append, List.length_cons, List.length_nil, hl9]
        omega
    omega
  -- the connection lines
  have hloop := connectionLoop_connectionLines room.type room.conns 1
    { mem with name := String.mk room.name.data, numConnections := 0 }
    (MakeRoomFile room).length hfuel (le_refl 1) (by omega) hconns
  obtain ⟨hc1, hc2, hc3, hc4⟩ := foldl_addConnection room.conns
    { mem with name := String.mk room.name.data, numConnections := 0 }
    (by show 0 + room.conns.length ≤ 6; omega)
  have hword3 : lastWord ('R' :: "OOM TYPE:".data ++ ' ' :: (types room.type).data)
      = some (types room.type).data := lastWord_text _ _ (types_data room.type).1
  have hconns0 : ({ mem with name := String.mk room.name.data, numConnections := 0 } : Room).conns
      = [] := by
    simp [Room.conns]
  rw [hconns0, List.nil_append] at hc1
  rw [hlenc, Nat.zero_add] at hc2
  have hc3a : (room.conns.foldl Room.addConnection
      { mem with name := String.mk room.name.data, numConnections := 0 }).name = room.name := hc3
  generalize room.conns.foldl Room.addConnection
      { mem with name := String.mk room.name.data, numConnections := 0 } = base
      at hloop hc1 hc2 hc3a
  have hparse : InitRooms.readRoomFile mem (MakeRoomFile room) =
      (if String.mk (types room.type).data = "START_ROOM" then
        some ({ base with type := Types.START_ROOM }, true)
      else if String.mk (types room.type).data = "MID_ROOM" then
        some ({ base with type := Types.MID_ROOM }, false)
      else if String.mk (types room.type).data = "END_ROOM" then
        some ({ base with type := Types.END_ROOM }, false)
      else some (base, false)) := by
    unfold InitRooms.readRoomFile
    rw [hread1]
    simp only [hword1]
    rw [hloop]
    simp only [hword3]
  rw [hparse]
  cases room.type
  · exact ⟨{ base with type := Types.START_ROOM }, true, by rw [if_pos (by decide)],
      hc3a, hc1, hc2, rfl, by simp⟩
  · exact ⟨{ base with type := Types.MID_ROOM }, false,
      by rw [if_neg (by decide), if_pos (by decide)], hc3a, hc1, hc2, rfl, by simp⟩
  · exact ⟨{ base with type := Types.END_ROOM }, false,
      by rw [if_neg (by decide), if_neg (by decide), if_pos (by decide)],
      hc3a, hc1, hc2, rfl, by simp⟩

theorem room_file_round_trip_witness :
    fitsFormat sampleRoom.name ∧ (∀ c ∈ sampleRoom.conns, fitsFormat c) ∧
    sampleRoom.numConnections ≤ MAX_CONNECTIONS ∧
    ∃ (room1 : Room) (isStart : Bool),
      InitRooms.readRoomFile (blankRooms 0) (MakeRoomFile sampleRoom) = some (room1, isStart) ∧
      room1.name = sampleRoom.name ∧ room1.conns = sampleRoom.conns ∧
      room1.numConnections = sampleRoom.numConnections ∧ room1.type = sampleRoom.type ∧
      (isStart = true ↔ sampleRoom.type = Types.START_ROOM) :=
  ⟨by decide, by decide, by decide,
    room_file_round_trip sampleRoom (blankRooms 0) (by decide) (by decide) (by decide)⟩

/-! ## Choosing a room -/

theorem firstMatch_none (roomName : String) (cs : List String) : ∀ i : Nat,
    GetSelectedRoomIndex.firstMatch roomName cs i = none ↔ roomName ∉ cs := by
  induction cs with
  | nil => intro i; simp [GetSelectedRoomIndex.firstMatch]
  | cons c cs ih =>
    intro i
    by_cases hc : c = roomName
    · simp [GetSelectedRoomIndex.firstMatch, hc]
    · have hc1 : ¬ roomName = c := fun h => hc h.symm
      simp [GetSelectedRoomIndex.firstMatch, hc, hc1, ih (i + 1)]

theorem firstMatch_some (roomName : String) (cs : List String) : ∀ i k : Nat,
    GetSelectedRoomIndex.firstMatch roomName cs i = some k →
    i ≤ k ∧ k < i + cs.length ∧ roomName ∈ cs := by
  induction cs with
  | nil => intro i k h; simp [GetSelectedRoomIndex.firstMatch] at h
  | cons c cs ih =>
    intro i k h
    by_cases hc : c = roomName
    · simp only [GetSelectedRoomIndex.firstMatch, hc, if_true, Option.some.injEq] at h
      subst h
      exact ⟨le_refl _, by simp, by simp [hc]⟩
    · simp only [GetSelectedRoomIndex.firstMatch, hc, if_false] at h
      obtain ⟨h1, h2, h3⟩ := ih (i + 1) k h
      exact ⟨by omega, by simp only [List.length_cons]; omega, List.mem_cons_of_mem _ h3⟩

theorem length_conns_le (room : Room) : room.conns.length ≤ room.numConnections := by
  unfold Room.conns
  rw [List.length_take]
  exact Nat.min_le_left _ _

/-- The value that `GetSelectedRoomIndex` returns for a name that is not among the connections
of the current room. -/
theorem GetSelectedRoomIndex_of_not_mem (rooms : Rooms) (currentRoom : Room) (roomName : String)
    (h : roomName ∉ currentRoom.conns) :
    GetSelectedRoomIndex rooms currentRoom roomName = -1 := by
  unfold GetSelectedRoomIndex
  rw [(firstMatch_none roomName currentRoom.conns 0).mpr h]
  simp

/-- The value that `GetSelectedRoomIndex` returns for a name that is among the connections of
the current room: the index of the first room of that name, or `-5` when no room has it. -/
theorem GetSelectedRoomIndex_of_mem (rooms : Rooms) (currentRoom : Room) (roomName : String)
    (h : roomName ∈ currentRoom.conns) :
    GetSelectedRoomIndex rooms currentRoom roomName =
      match (List.finRange NUM_OF_ROOMS).find? fun j => decide ((rooms j).name = roomName) with
      | some j => (j.val : Int)
      | none => -5 := by
  unfold GetSelectedRoomIndex
  cases hf : GetSelectedRoomIndex.firstMatch roomName currentRoom.conns 0 with
  | none => exact absurd h ((firstMatch_none roomName currentRoom.conns 0).mp hf)
  | some k =>
    obtain ⟨_, hk, _⟩ := firstMatch_some roomName currentRoom.conns 0 k hf
    have hle := length_conns_le currentRoom
    have hne : k ≠ currentRoom.numConnections := by omega
    simp [hne]

/-- C11: for every room array, current room and name, `GetSelectedRoomIndex` returns `-1` if
and only if the name is not equal (as a whole string, with case) to one of the first
`numConnections` connections of the current room. -/
theorem GetSelectedRoomIndex_eq_neg_one_iff (rooms : Rooms) (currentRoom : Room)
    (roomName : String) :
    GetSelectedRoomIndex rooms currentRoom roomName = -1 ↔ roomName ∉ currentRoom.conns := by
  constructor
  · intro hret hmem
    rw [GetSelectedRoomIndex_of_mem rooms currentRoom roomName hmem] at hret
    split at hret
    · next j _ =>
      have : (0 : Int) ≤ (j.val : Int) := Int.ofNat_nonneg _
      omega
    · omega
  · exact GetSelectedRoomIndex_of_not_mem rooms currentRoom roomName

/-! ## One pass of the game loop -/

theorem rearm_fields (g : Game) :
    (rearm g).currentRoom = g.currentRoom ∧ (rearm g).tmpFile = g.tmpFile ∧
    (rearm g).steps = g.steps ∧ (rearm g).timeFile = g.timeFile := by
  unfold rearm
  split <;> exact ⟨rfl, rfl, rfl, rfl⟩

theorem timeQuery_fields (g : Game) (now : String) :
    (timeQuery g now).currentRoom = g.currentRoom ∧ (timeQuery g now).tmpFile = g.tmpFile ∧
    (timeQuery g now).steps = g.steps := by
  unfold timeQuery
  split <;> exact ⟨rfl, rfl, rfl⟩

/-- With distinct room names, the second loop of `GetSelectedRoomIndex` finds the room of the
given name. -/
theorem find_room_of_name (rooms : Rooms)
    (hdistinct : ∀ i j : Fin NUM_OF_ROOMS, (rooms i).name = (rooms j).name → i = j)
    (roomName : String) (j : Fin NUM_OF_ROOMS) (hj : (rooms j).name = roomName) :
    ((List.finRange NUM_OF_ROOMS).find? fun i => decide ((rooms i).name = roomName)) = some j := by
  cases hf : (List.finRange NUM_OF_ROOMS).find? fun i => decide ((rooms i).name = roomName) with
  | none =>
    rw [List.find?_eq_none] at hf
    have := hf j (List.mem_finRange j)
    simp [hj] at this
  | some i =>
    have hi := List.find?_some hf
    have hname : (rooms i).name = roomName := by simpa using hi
    rw [hdistinct i j (hname.trans hj.symm)]

theorem roomAt_val (j : Fin NUM_OF_ROOMS) : roomAt (j.val : Int) = j := by
  apply Fin.ext
  show (Int.toNat (j.val : Int)) % NUM_OF_ROOMS = j.val
  rw [Int.toNat_ofNat]
  exact Nat.mod_eq_of_lt j.isLt

/-- C12: for every graph, every state of the game and every line typed whose text is not
`time` and not one of the connections of the current room, one pass of the game loop leaves
the current room, the recorded path and the step count as they were. -/
theorem invalid_choice_changes_nothing (rooms : Rooms) (g : Game) (line now : String)
    (htime : userChoice line ≠ "time")
    (hnot : userChoice line ∉ (rooms g.currentRoom).conns) :
    (gameLoopBody rooms g line now).map (fun g1 => (g1.currentRoom, g1.tmpFile, g1.steps))
      = some (g.currentRoom, g.tmpFile, g.steps) := by
  obtain ⟨h1, h2, h3, _⟩ := rearm_fields g
  unfold gameLoopBody processChoice
  rw [if_neg htime]
  have hidx : GetSelectedRoomIndex rooms (rooms g.currentRoom) (userChoice line) = -1 :=
    GetSelectedRoomIndex_of_not_mem _ _ _ hnot
  simp only [h1, hidx, if_true, Option.map_some', h2, h3]

theorem invalid_choice_changes_nothing_witness :
    userChoice "Study\n" ≠ "time" ∧
    userChoice "Study\n" ∉ (scenarioRooms scenarioStart.currentRoom).conns ∧
    (gameLoopBody scenarioRooms scenarioStart "Study\n" "").map
        (fun g1 => (g1.currentRoom, g1.tmpFile, g1.steps))
      = some (scenarioStart.currentRoom, scenarioStart.tmpFile, scenarioStart.steps) :=
  ⟨by decide, by decide,
    invalid_choice_changes_nothing scenarioRooms scenarioStart "Study\n" "" (by decide)
      (by decide)⟩

/-- The pass of the game loop for a choice that is among the connections of the current room
and is not `time`, in a graph with distinct room names: the game moves to the room of that
name, the name and a newline are appended to the temp file, and the step count grows by 1. -/
theorem gameLoopBody_valid (rooms : Rooms) (g : Game) (line now : String)
    (hdistinct : ∀ i j : Fin NUM_OF_ROOMS, (rooms i).name = (rooms j).name → i = j)
    (htime : userChoice line ≠ "time")
    (hchoice : userChoice line ∈ (rooms g.currentRoom).conns)
    (j : Fin NUM_OF_ROOMS) (hj : (rooms j).name = userChoice line) :
    gameLoopBody rooms g line now =
      some { rearm g with
        currentRoomIndex := (j.val : Int)
        currentRoom := j
        tmpFile := g.tmpFile ++ userChoice line ++ "\n"
        steps := g.steps + 1 } := by
  obtain ⟨h1, h2, h3, _⟩ := rearm_fields g
  unfold gameLoopBody processChoice
  rw [if_neg htime]
  have hidx : GetSelectedRoomIndex rooms (rooms (rearm g).currentRoom) (userChoice line)
      = (j.val : Int) := by
    rw [GetSelectedRoomIndex_of_mem _ _ _ (by rw [h1]; exact hchoice),
      find_room_of_name rooms hdistinct _ j hj]
  have hj6 : j.val < 7 := j.isLt
  have hne : ((j.val : Int) = -1) = False := by
    apply eq_false
    omega
  have hrange : ((j.val : Int) > 6 ∨ (j.val : Int) < -1) = False := by
    apply eq_false
    omega
  simp only [hidx, hne, hrange, if_false, roomAt_val, RecordValidChoice, h2, h3]

theorem recordedText_append (entries : List String) (name : String) :
    recordedText (entries ++ [name]) = recordedText entries ++ name ++ "\n" := by
  induction entries with
  | nil => simp [recordedText]
  | cons e es ih =>
    show e ++ "\n" ++ recordedText (es ++ [name]) = e ++ "\n" ++ recordedText es ++ name ++ "\n"
    rw [ih]
    simp only [String.append_assoc]

/-- C13 as stated fails: `timeNamedRooms` has distinct room names, each of its connections
names one of its rooms, and `time` is a connection of the current room `Kitchen`; yet the pass
of the game loop for the line `time` does not move to the room called `time`, records nothing
and leaves the step count at 0, since the choice `time` is tested first. -/
theorem valid_choice_moves_counterexample :
    (∀ i j : Fin NUM_OF_ROOMS, (timeNamedRooms i).name = (timeNamedRooms j).name → i = j) ∧
    (∀ i : Fin NUM_OF_ROOMS, ∀ c ∈ (timeNamedRooms i).conns,
      ∃ j : Fin NUM_OF_ROOMS, (timeNamedRooms j).name = c) ∧
    userChoice "time\n" ∈ (timeNamedRooms scenarioStart.currentRoom).conns ∧
    (timeNamedRooms 1).name = userChoice "time\n" ∧
    (gameLoopBody timeNamedRooms scenarioStart "time\n" "1:03pm").map
        (fun g1 => (g1.currentRoom, g1.tmpFile, g1.steps))
      = some (scenarioStart.currentRoom, scenarioStart.tmpFile, scenarioStart.steps) ∧
    (gameLoopBody timeNamedRooms scenarioStart "time\n" "1:03pm").map
        (fun g1 => (g1.currentRoom, g1.tmpFile, g1.steps))
      ≠ some (1, scenarioStart.tmpFile ++ userChoice "time\n" ++ "\n",
          scenarioStart.steps + 1) := by
  refine ⟨by decide, by decide, by decide, by decide, by decide, by decide⟩

/-- C13, amended: for every graph with distinct room names in which every connection names
one of the rooms, every state of the game and every line typed whose text is one of the
connections of the current room and is not `time`, one pass of the game loop makes the room
of that name the current room, appends that name (and a newline) to the recorded path, where
it is the last entry, and increases the step count by exactly 1. -/
theorem valid_choice_moves (rooms : Rooms) (g : Game) (line now : String)
    (hdistinct : ∀ i j : Fin NUM_OF_ROOMS, (rooms i).name = (rooms j).name → i = j)
    (hnames : ∀ i : Fin NUM_OF_ROOMS, ∀ c ∈ (rooms i).conns,
      ∃ j : Fin NUM_OF_ROOMS, (rooms j).name = c)
    (htime : userChoice line ≠ "time")
    (hchoice : userChoice line ∈ (rooms g.currentRoom).conns) :
    ∃ (j : Fin NUM_OF_ROOMS) (g1 : Game), (rooms j).name = userChoice line ∧
      gameLoopBody rooms g line now = some g1 ∧ g1.currentRoom = j ∧
      g1.tmpFile = g.tmpFile ++ userChoice line ++ "\n" ∧ g1.steps = g.steps + 1 ∧
      ∀ entries : List String, g.tmpFile = recordedText entries →
        g1.tmpFile = recordedText (entries ++ [userChoice line]) := by
  obtain ⟨j, hj⟩ := hnames g.currentRoom _ hchoice
  refine ⟨j, _, hj, gameLoopBody_valid rooms g line now hdistinct htime hchoice j hj,
    rfl, rfl, rfl, ?_⟩
  intro entries hentries
  rw [recordedText_append, ← hentries]

theorem valid_choice_moves_witness :
    (∀ i j : Fin NUM_OF_ROOMS, (scenarioRooms i).name = (scenarioRooms j).name → i = j) ∧
    (∀ i : Fin NUM_OF_ROOMS, ∀ c ∈ (scenarioRooms i).conns,
      ∃ j : Fin NUM_OF_ROOMS, (scenarioRooms j).name = c) ∧
    userChoice "Library\n" ≠ "time" ∧
    userChoice "Library\n" ∈ (scenarioRooms scenarioStart.currentRoom).conns ∧
    ∃ (j : Fin NUM_OF_ROOMS) (g1 : Game), (scenarioRooms j).name = userChoice "Library\n" ∧
      gameLoopBody scenarioRooms scenarioStart "Library\n" "" = some g1 ∧ g1.currentRoom = j ∧
      g1.tmpFile = scenarioStart.tmpFile ++ userChoice "Library\n" ++ "\n" ∧
      g1.steps = scenarioStart.steps + 1 ∧
      ∀ entries : List String, scenarioStart.tmpFile = recordedText entries →
        g1.tmpFile = recordedText (entries ++ [userChoice "Library\n"]) :=
  ⟨by decide, by decide, by decide, by decide,
    valid_choice_moves scenarioRooms scenarioStart "Library\n" "" (by decide) (by decide)
      (by decide) (by decide)⟩

/-- C14: for every state of the game, a pass of the game loop for the line `time` leaves the
current room, the recorded path and the step count as they were, and so does a second such
pass right after it. -/
theorem time_changes_nothing (rooms : Rooms) (g : Game) (line1 now1 line2 now2 : String)
    (h1 : userChoice line1 = "time") (h2 : userChoice line2 = "time") :
    ∃ g1 g2 : Game, gameLoopBody rooms g line1 now1 = some g1 ∧
      gameLoopBody rooms g1 line2 now2 = some g2 ∧
      (g1.currentRoom, g1.tmpFile, g1.steps) = (g.currentRoom, g.tmpFile, g.steps) ∧
      (g2.currentRoom, g2.tmpFile, g2.steps) = (g.currentRoom, g.tmpFile, g.steps) := by
  have hbody : ∀ (s : Game) (line now : String), userChoice line = "time" →
      gameLoopBody rooms s line now = some (timeQuery (rearm s) now) := by
    intro s line now h
    unfold gameLoopBody processChoice
    rw [if_pos h]
  have hkeep : ∀ (s : Game) (now : String),
      ((timeQuery (rearm s) now).currentRoom, (timeQuery (rearm s) now).tmpFile,
        (timeQuery (rearm s) now).steps) = (s.currentRoom, s.tmpFile, s.steps) := by
    intro s now
    obtain ⟨a1, a2, a3⟩ := timeQuery_fields (rearm s) now
    obtain ⟨b1, b2, b3, _⟩ := rearm_fields s
    rw [a1, a2, a3, b1, b2, b3]
  refine ⟨_, _, hbody g line1 now1 h1, hbody _ line2 now2 h2, hkeep g now1, ?_⟩
  rw [hkeep (timeQuery (rearm g) now1) now2, hkeep g now1]

theorem time_changes_nothing_witness :
    userChoice "time\n" = "time" ∧
    ∃ g1 g2 : Game, gameLoopBody scenarioRooms scenarioStart "time\n" "1:03pm" = some g1 ∧
      gameLoopBody scenarioRooms g1 "time\n" "1:04pm" = some g2 ∧
      (g1.currentRoom, g1.tmpFile, g1.steps)
        = (scenarioStart.currentRoom, scenarioStart.tmpFile, scenarioStart.steps) ∧
      (g2.currentRoom, g2.tmpFile, g2.steps)
        = (scenarioStart.currentRoom, scenarioStart.tmpFile, scenarioStart.steps) :=
  ⟨by decide,
    time_changes_nothing scenarioRooms scenarioStart "time\n" "1:03pm" "time\n" "1:04pm"
      (by decide) (by decide)⟩

/-! ## The recorded path -/

theorem stripNewline_no_newline (l : List Char) : '\n' ∉ stripNewline l := by
  unfold stripNewline
  induction l with
  | nil => simp
  | cons c l ih =>
    by_cases hc : c = '\n'
    · simp [List.takeWhile, hc]
    · rw [List.takeWhile_cons_of_pos (by simpa using hc)]
      intro hmem
      rcases List.mem_cons.mp hmem with h | h
      · exact hc h.symm
      · exact ih h

theorem userChoice_no_newline (line : String) : '\n' ∉ (userChoice line).data :=
  stripNewline_no_newline line.data

theorem textLines_line (w rest : List Char) (hw : '\n' ∉ w) :
    textLines (w ++ '\n' :: rest) = w :: textLines rest := by
  induction w with
  | nil => simp [textLines]
  | cons c w ih =>
    have hc : c ≠ '\n' := fun h => hw (h ▸ List.mem_cons_self _ _)
    have hl : '\n' ∉ w := fun h => hw (List.mem_cons_of_mem _ h)
    show textLines (c :: (w ++ '\n' :: rest)) = (c :: w) :: textLines rest
    simp only [textLines, hc, if_false, ih hl]

theorem recordedText_data (name : String) (rest : List String) :
    (recordedText (name :: rest)).data = name.data ++ '\n' :: (recordedText rest).data := by
  show (name ++ "\n" ++ recordedText rest).data = _
  simp only [String.data_append]
  simp

theorem pathEntries_recordedText (entries : List String)
    (h : ∀ e ∈ entries, '\n' ∉ e.data) : pathEntries (recordedText entries) = entries := by
  induction entries with
  | nil => rfl
  | cons e es ih =>
    have he := h e (List.mem_cons_self _ _)
    have hes := ih fun x hx => h x (List.mem_cons_of_mem _ hx)
    unfold pathEntries at hes ⊢
    rw [recordedText_data, textLines_line _ _ he, List.map_cons, hes]

theorem Recorded_start (startingIndex : Int) (g0 : Game) (h : startGame startingIndex = some g0) :
    Recorded g0 ∧ g0.steps = 0 ∧ g0.tmpFile = "" := by
  unfold startGame at h
  split at h
  · simp at h
  · simp only [Option.some.injEq] at h
    subst h
    exact ⟨⟨[], by simp, rfl, rfl⟩, rfl, rfl⟩

theorem Recorded_rearm (g : Game) (h : Recorded g) : Recorded (rearm g) := by
  obtain ⟨es, h1, h2, h3⟩ := h
  obtain ⟨_, a2, a3, _⟩ := rearm_fields g
  exact ⟨es, h1, a2.trans h2, a3.trans h3⟩

theorem Recorded_processChoice (rooms : Rooms) (g g1 : Game) (line now : String)
    (h : Recorded g) (hstep : processChoice rooms g line now = some g1) : Recorded g1 := by
  obtain ⟨es, h1, h2, h3⟩ := h
  unfold processChoice at hstep
  split at hstep
  · simp only [Option.some.injEq] at hstep
    subst hstep
    obtain ⟨_, a2, a3⟩ := timeQuery_fields g now
    exact ⟨es, h1, a2.trans h2, a3.trans h3⟩
  · simp only at hstep
    split at hstep
    · simp only [Option.some.injEq] at hstep
      subst hstep
      exact ⟨es, h1, h2, h3⟩
    · split at hstep
      · simp at hstep
      · simp only [Option.some.injEq] at hstep
        subst hstep
        refine ⟨es ++ [userChoice line], ?_, ?_, ?_⟩
        · intro e he
          rcases List.mem_append.mp he with he | he
          · exact h1 e he
          · rw [List.mem_singleton.mp he]
            exact userChoice_no_newline line
        · show RecordValidChoice (userChoice line) g.tmpFile = _
          rw [recordedText_append, ← h2]
          rfl
        · show g.steps + 1 = _
          rw [List.length_append, List.length_singleton, h3]

theorem Recorded_gameLoop (rooms : Rooms) (inputs : List (String × String)) :
    ∀ g g1 : Game, Recorded g → gameLoop rooms g inputs = some g1 → Recorded g1 := by
  induction inputs with
  | nil =>
    intro g g1 h hrun
    unfold gameLoop at hrun
    split at hrun
    · simp only [Option.some.injEq] at hrun
      exact hrun ▸ h
    · simp only [Option.some.injEq] at hrun
      exact hrun ▸ Recorded_rearm g h
  | cons input inputs ih =>
    intro g g1 h hrun
    obtain ⟨line, now⟩ := input
    unfold gameLoop at hrun
    split at hrun
    · simp only [Option.some.injEq] at hrun
      exact hrun ▸ h
    · split at hrun
      · simp at hrun
      · next g2 hbody =>
        exact ih g2 g1 (Recorded_processChoice rooms (rearm g) g2 line now
          (Recorded_rearm g h) hbody) hrun

theorem steps_of_Recorded (g : Game) (h : Recorded g) :
    g.steps = (pathEntries g.tmpFile).length := by
  obtain ⟨es, h1, h2, h3⟩ := h
  rw [h2, pathEntries_recordedText es h1, h3]

/-- C16: in a game session, whatever the lines typed, the step count equals the number of
names recorded in the temp file of the path: at the start, and in the state that the game loop
reaches on any list of lines (so after every pass of the loop). -/
theorem steps_eq_path_length (rooms : Rooms) (startingIndex : Int) (g0 g : Game)
    (inputs : List (String × String)) (hstart : startGame startingIndex = some g0)
    (hrun : gameLoop rooms g0 inputs = some g) :
    g0.steps = (pathEntries g0.tmpFile).length ∧ g.steps = (pathEntries g.tmpFile).length :=
  ⟨steps_of_Recorded g0 (Recorded_start startingIndex g0 hstart).1,
    steps_of_Recorded g (Recorded_gameLoop rooms inputs g0 g
      (Recorded_start startingIndex g0 hstart).1 hrun)⟩

theorem steps_eq_path_length_witness :
    startGame 0 = some scenarioStart ∧
    gameLoop scenarioRooms scenarioStart
        [("Library\n", ""), ("time\n", "1:03pm"), ("Cellar\n", ""), ("Study\n", "")]
      = some { scenarioStart with
          currentRoomIndex := 6, currentRoom := 6, steps := 2, tmpFile := "Library\nStudy\n",
          timeFile := "1:03pm" } ∧
    scenarioStart.steps = (pathEntries scenarioStart.tmpFile).length ∧
    (2 : Nat) = (pathEntries "Library\nStudy\n").length :=
  ⟨by decide, by decide,
    steps_eq_path_length scenarioRooms 0 scenarioStart
      { scenarioStart with
          currentRoomIndex := 6, currentRoom := 6, steps := 2, tmpFile := "Library\nStudy\n",
          timeFile := "1:03pm" }
      [("Library\n", ""), ("time\n", "1:03pm"), ("Cellar\n", ""), ("Study\n", "")]
      (by decide) (by decide)⟩

/-! ## The final report -/

theorem fgets_split (n : Nat) : ∀ file : List Char,
    (fgets n file).1 ++ (fgets n file).2 = file ∧
    (0 < n → file ≠ [] → (fgets n file).2.length < file.length) := by
  induction n with
  | zero => intro file; exact ⟨rfl, fun h => absurd h (Nat.lt_irrefl 0)⟩
  | succ n ih =>
    intro file
    cases file with
    | nil => exact ⟨rfl, fun _ h => absurd rfl h⟩
    | cons c file =>
      by_cases hc : c = '\n'
      · simp [fgets, hc]
      · obtain ⟨h1, _⟩ := ih file
        have hlen : (fgets n file).2.length ≤ file.length := by
          have := congrArg List.length h1
          rw [List.length_append] at this
          omega
        constructor
        · simp only [fgets, hc, if_false]
          show c :: ((fgets n file).1 ++ (fgets n file).2) = c :: file
          rw [h1]
        · intro _ _
          simp only [fgets, hc, if_false, List.length_cons]
          omega

theorem PrintPlayerPath_loop (fuel : Nat) : ∀ file : List Char, file.length ≤ fuel →
    PrintPlayerPath.loop fuel file = file := by
  induction fuel with
  | zero =>
    intro file h
    have : file = [] := List.length_eq_zero.mp (Nat.le_zero.mp h)
    subst this
    rfl
  | succ fuel ih =>
    intro file h
    unfold PrintPlayerPath.loop
    by_cases hnil : file = []
    · simp [hnil]
    · simp only [hnil, if_false]
      obtain ⟨h1, h2⟩ := fgets_split (MAX_CHARS + 1) file
      have hlt := h2 (Nat.succ_pos _) hnil
      show (fgets (MAX_CHARS + 1) file).1 ++ PrintPlayerPath.loop fuel (fgets (MAX_CHARS + 1) file).2
        = file
      rw [ih _ (by omega), h1]

/-- `PrintPlayerPath` prints the temp file as it is. -/
theorem PrintPlayerPath_eq (tmpFile : String) : PrintPlayerPath tmpFile = tmpFile := by
  have h := PrintPlayerPath_loop tmpFile.length tmpFile.data (le_refl _)
  unfold PrintPlayerPath
  rw [h]

theorem types_eq_END_ROOM (t : Types) : types t = "END_ROOM" ↔ t = Types.END_ROOM := by
  cases t <;> decide

/-- The second loop of `GetSelectedRoomIndex` stops at the first room of the array that has
the name looked for. -/
theorem find_first_room (rooms : Rooms) (roomName : String) (r : Fin NUM_OF_ROOMS)
    (hname : (rooms r).name = roomName)
    (hfirst : ∀ j : Fin NUM_OF_ROOMS, (rooms j).name = roomName → r ≤ j) :
    ((List.finRange NUM_OF_ROOMS).find? fun j => decide ((rooms j).name = roomName))
      = some r := by
  cases hf : (List.finRange NUM_OF_ROOMS).find?
      fun j => decide ((rooms j).name = roomName) with
  | none =>
    rw [List.find?_eq_none] at hf
    have := hf r (List.mem_finRange r)
    simp [hname] at this
  | some i =>
    obtain ⟨hi, front, back, hsplit, hfront⟩ := List.find?_eq_some.mp hf
    have hi1 : (rooms i).name = roomName := by simpa using hi
    have hri : r ≤ i := hfirst i hi1
    have hmem : r ∈ front ++ i :: back := hsplit ▸ List.mem_finRange r
    have hsorted : List.Pairwise (fun a b : Fin NUM_OF_ROOMS => a < b) (front ++ i :: back) :=
      hsplit ▸ List.pairwise_lt_finRange NUM_OF_ROOMS
    rcases List.mem_append.mp hmem with h1 | h1
    · have := hfront r h1
      simp [hname] at this
    · rcases List.mem_cons.mp h1 with h2 | h2
      · rw [h2]
      · have hlt : i < r := List.rel_of_pairwise_cons (List.pairwise_append.mp hsorted).2.1 h2
        exact absurd hri (not_le.mpr hlt)

/-- The room that the second loop of `GetSelectedRoomIndex` finds has the name looked for and
is the first room of the array that has it. -/
theorem first_room_of_find (rooms : Rooms) (roomName : String) (r : Fin NUM_OF_ROOMS)
    (hfind : ((List.finRange NUM_OF_ROOMS).find?
      fun j => decide ((rooms j).name = roomName)) = some r) :
    (rooms r).name = roomName ∧
    ∀ j : Fin NUM_OF_ROOMS, (rooms j).name = roomName → r ≤ j := by
  obtain ⟨hr, front, back, hsplit, hfront⟩ := List.find?_eq_some.mp hfind
  refine ⟨by simpa using hr, ?_⟩
  intro j hj
  have hmem : j ∈ front ++ r :: back := hsplit ▸ List.mem_finRange j
  have hsorted : List.Pairwise (fun a b : Fin NUM_OF_ROOMS => a < b) (front ++ r :: back) :=
    hsplit ▸ List.pairwise_lt_finRange NUM_OF_ROOMS
  rcases List.mem_append.mp hmem with h1 | h1
  · have := hfront j h1
    simp [hj] at this
  · rcases List.mem_cons.mp h1 with h2 | h2
    · rw [h2]
    · exact le_of_lt (List.rel_of_pairwise_cons (List.pairwise_append.mp hsorted).2.1 h2)

/-- The pass of the game loop for a choice that is among the connections of the current room
and is not `time`, when `j` is the room that the lookup finds for it: the game moves to `j`,
the name and a newline are appended to the temp file, and the step count grows by 1. -/
theorem gameLoopBody_enters (rooms : Rooms) (g : Game) (line now : String)
    (htime : userChoice line ≠ "time")
    (hchoice : userChoice line ∈ (rooms g.currentRoom).conns)
    (j : Fin NUM_OF_ROOMS)
    (hfind : ((List.finRange NUM_OF_ROOMS).find?
      fun i => decide ((rooms i).name = userChoice line)) = some j) :
    gameLoopBody rooms g line now =
      some { rearm g with
        currentRoomIndex := (j.val : Int)
        currentRoom := j
        tmpFile := g.tmpFile ++ userChoice line ++ "\n"
        steps := g.steps + 1 } := by
  obtain ⟨h1, h2, h3, _⟩ := rearm_fields g
  unfold gameLoopBody processChoice
  rw [if_neg htime]
  have hidx : GetSelectedRoomIndex rooms (rooms (rearm g).currentRoom) (userChoice line)
      = (j.val : Int) := by
    rw [GetSelectedRoomIndex_of_mem _ _ _ (by rw [h1]; exact hchoice), hfind]
  have hj6 : j.val < 7 := j.isLt
  have hne : ((j.val : Int) = -1) = False := by
    apply eq_false
    omega
  have hrange : ((j.val : Int) > 6 ∨ (j.val : Int) < -1) = False := by
    apply eq_false
    omega
  simp only [hidx, hne, hrange, if_false, roomAt_val, RecordValidChoice, h2, h3]

/-- The pass of the game loop for a choice that is among the connections of the current room
and is not `time`, when no room has this name: the program exits, the pass does not return. -/
theorem gameLoopBody_no_room (rooms : Rooms) (g : Game) (line now : String)
    (htime : userChoice line ≠ "time")
    (hchoice : userChoice line ∈ (rooms g.currentRoom).conns)
    (hfind : ((List.finRange NUM_OF_ROOMS).find?
      fun i => decide ((rooms i).name = userChoice line)) = none) :
    gameLoopBody rooms g line now = none := by
  obtain ⟨h1, _, _, _⟩ := rearm_fields g
  unfold gameLoopBody processChoice
  rw [if_neg htime]
  have hidx : GetSelectedRoomIndex rooms (rooms (rearm g).currentRoom) (userChoice line)
      = -5 := by
    rw [GetSelectedRoomIndex_of_mem _ _ _ (by rw [h1]; exact hchoice), hfind]
  simp [hidx]

/-- The pass of the game loop for a line that is `time` or is not a connection of the current
room: the pass returns, and the current room, the temp file and the step count are as they
were. -/
theorem gameLoopBody_ignored (rooms : Rooms) (g : Game) (line now : String)
    (h : userChoice line = "time" ∨ userChoice line ∉ (rooms g.currentRoom).conns) :
    ∃ g2 : Game, gameLoopBody rooms g line now = some g2 ∧
      g2.currentRoom = g.currentRoom ∧ g2.tmpFile = g.tmpFile ∧ g2.steps = g.steps := by
  obtain ⟨h1, h2, h3, _⟩ := rearm_fields g
  by_cases htime : userChoice line = "time"
  · obtain ⟨t1, t2, t3⟩ := timeQuery_fields (rearm g) now
    refine ⟨timeQuery (rearm g) now, ?_, t1.trans h1, t2.trans h2, t3.trans h3⟩
    unfold gameLoopBody processChoice
    rw [if_pos htime]
  · have hnot : userChoice line ∉ (rooms g.currentRoom).conns := h.resolve_left htime
    have hidx : GetSelectedRoomIndex rooms (rooms (rearm g).currentRoom) (userChoice line)
        = -1 := GetSelectedRoomIndex_of_not_mem _ _ _ (by rw [h1]; exact hnot)
    refine ⟨{ rearm g with currentRoomIndex := -1 }, ?_, h1, h2, h3⟩
    unfold gameLoopBody processChoice
    rw [if_neg htime]
    simp only [hidx, if_true]

/-- The game loop on what a player does: on lines that are played from the current room of
`g`, entering the rooms of `path`, the loop returns in the last room entered (the current room
of `g` when there is none), with one more step and one more recorded name for each room of
`path`. -/
theorem gameLoop_played (rooms : Rooms) (a : Fin NUM_OF_ROOMS)
    (inputs : List (String × String)) (path : List (Fin NUM_OF_ROOMS))
    (h : Played rooms a inputs path) :
    ∀ g : Game, g.currentRoom = a →
    ∃ g1 : Game, gameLoop rooms g inputs = some g1 ∧
      g1.currentRoom = path.getLastD a ∧ g1.steps = g.steps + path.length ∧
      g1.tmpFile = g.tmpFile ++ recordedText (path.map fun r => (rooms r).name) := by
  induction h with
  | done a =>
    intro g hg
    obtain ⟨a1, a2, a3, _⟩ := rearm_fields g
    unfold gameLoop
    split
    · exact ⟨g, rfl, hg, rfl, by simp [recordedText]⟩
    · exact ⟨rearm g, rfl, a1.trans hg, a3, by simp [recordedText, a2]⟩
  | ignored a line now inputs path hnotend hign _ ih =>
    intro g hg
    have hnotend1 : ¬ types (rooms g.currentRoom).type = "END_ROOM" := by
      rw [types_eq_END_ROOM, hg]
      exact hnotend
    obtain ⟨g2, hbody, hr2, hf2, hs2⟩ := gameLoopBody_ignored rooms g line now (by rw [hg]; exact hign)
    obtain ⟨g1, hrun, hroom, hsteps, hfile⟩ := ih g2 (hr2.trans hg)
    refine ⟨g1, ?_, hroom, by rw [hsteps, hs2], by rw [hfile, hf2]⟩
    unfold gameLoop
    rw [if_neg hnotend1, hbody]
    exact hrun
  | moved a b line now inputs path hnotend htime hchoice hname hfirst _ ih =>
    intro g hg
    have hnotend1 : ¬ types (rooms g.currentRoom).type = "END_ROOM" := by
      rw [types_eq_END_ROOM, hg]
      exact hnotend
    obtain ⟨g2, hbody, hr2, hf2, hs2⟩ : ∃ g2 : Game, gameLoopBody rooms g line now = some g2 ∧
        g2.currentRoom = b ∧ g2.tmpFile = g.tmpFile ++ userChoice line ++ "\n" ∧
        g2.steps = g.steps + 1 :=
      ⟨_, gameLoopBody_enters rooms g line now htime (by rw [hg]; exact hchoice) b
        (find_first_room rooms (userChoice line) b hname hfirst), rfl, rfl, rfl⟩
    obtain ⟨g1, hrun, hroom, hsteps, hfile⟩ := ih g2 hr2
    refine ⟨g1, ?_, ?_, ?_, ?_⟩
    · unfold gameLoop
      rw [if_neg hnotend1, hbody]
      exact hrun
    · rw [hroom]
      cases path with
      | nil => rfl
      | cons c rest => simp [List.getLastD, List.getLast?_cons_cons]
    · rw [hsteps, hs2]
      simp only [List.length_cons]
      omega
    · rw [hfile, hf2, ← hname]
      show g.tmpFile ++ (rooms b).name ++ "\n" ++ _ = g.tmpFile ++ ((rooms b).name ++ "\n" ++ _)
      simp only [String.append_assoc]

/-- Every run of the game loop that ends in the end room is one that `Played` describes: the
lines that the loop has read (the lines given, up to the pass that reaches the end room) are
played from the room where the run starts, and the last room entered is the room where the
run ends. -/
theorem Played_of_gameLoop (rooms : Rooms) : ∀ (inputs : List (String × String)) (g g1 : Game),
    gameLoop rooms g inputs = some g1 → types (rooms g1.currentRoom).type = "END_ROOM" →
    ∃ (read unread : List (String × String)) (path : List (Fin NUM_OF_ROOMS)),
      inputs = read ++ unread ∧ Played rooms g.currentRoom read path ∧
      path.getLastD g.currentRoom = g1.currentRoom := by
  intro inputs
  induction inputs with
  | nil =>
    intro g g1 h _
    refine ⟨[], [], [], rfl, Played.done _, ?_⟩
    unfold gameLoop at h
    split at h
    · simp only [Option.some.injEq] at h
      rw [← h]
      rfl
    · simp only [Option.some.injEq] at h
      rw [← h]
      exact (rearm_fields g).1.symm
  | cons input inputs ih =>
    intro g g1 h hend
    obtain ⟨line, now⟩ := input
    unfold gameLoop at h
    by_cases hg : types (rooms g.currentRoom).type = "END_ROOM"
    · rw [if_pos hg] at h
      simp only [Option.some.injEq] at h
      exact ⟨[], (line, now) :: inputs, [], rfl, Played.done _, by rw [← h]; rfl⟩
    · rw [if_neg hg] at h
      have hnotend : (rooms g.currentRoom).type ≠ Types.END_ROOM :=
        fun hc => hg ((types_eq_END_ROOM _).mpr hc)
      cases hbody : gameLoopBody rooms g line now with
      | none => rw [hbody] at h; simp at h
      | some g2 =>
        rw [hbody] at h
        simp only at h
        obtain ⟨read, unread, path, hsplit, hplayed, hlast⟩ := ih g2 g1 h hend
        by_cases hign : userChoice line = "time" ∨ userChoice line ∉ (rooms g.currentRoom).conns
        · obtain ⟨g3, hbody3, hr3, _, _⟩ := gameLoopBody_ignored rooms g line now hign
          rw [hbody] at hbody3
          simp only [Option.some.injEq] at hbody3
          subst hbody3
          rw [hr3] at hplayed hlast
          exact ⟨(line, now) :: read, unread, path, by rw [hsplit]; rfl,
            Played.ignored _ line now read path hnotend hign hplayed, hlast⟩
        · have htime : userChoice line ≠ "time" := fun hc => hign (Or.inl hc)
          have hchoice : userChoice line ∈ (rooms g.currentRoom).conns := by
            by_contra hc
            exact hign (Or.inr hc)
          cases hfind : (List.finRange NUM_OF_ROOMS).find?
              fun i => decide ((rooms i).name = userChoice line) with
          | none =>
            rw [gameLoopBody_no_room rooms g line now htime hchoice hfind] at hbody
            simp at hbody
          | some b =>
            have hb := gameLoopBody_enters rooms g line now htime hchoice b hfind
            rw [hbody] at hb
            simp only [Option.some.injEq] at hb
            have hr2 : g2.currentRoom = b := by rw [hb]
            rw [hr2] at hplayed hlast
            obtain ⟨hname, hfirst⟩ := first_room_of_find rooms (userChoice line) b hfind
            refine ⟨(line, now) :: read, unread, b :: path, by rw [hsplit]; rfl,
              Played.moved _ b line now read path hnotend htime hchoice hname hfirst hplayed, ?_⟩
            rw [← hlast]
            cases path with
            | nil => rfl
            | cons c rest => simp [List.getLastD, List.getLast?_cons_cons]

/-- The names of the rooms entered are texts of lines typed: they hold no newline. -/
theorem Played_names_plain (rooms : Rooms) (a : Fin NUM_OF_ROOMS)
    (inputs : List (String × String)) (path : List (Fin NUM_OF_ROOMS))
    (h : Played rooms a inputs path) :
    ∀ e ∈ path.map (fun r => (rooms r).name), '\n' ∉ e.data := by
  induction h with
  | done a => intro e he; simp at he
  | ignored a line now inputs path _ _ _ ih => exact ih
  | moved a b line now inputs path _ _ _ hname _ _ ih =>
    intro e he
    rcases List.mem_cons.mp he with h1 | h1
    · rw [h1]
      show '\n' ∉ ((rooms b).name).data
      rw [hname]
      exact userChoice_no_newline line
    · exact ih e h1

/-- C15 as stated fails: in `scenarioRooms` the game starts in `Kitchen` with 0 steps and an
empty temp file, not with `Kitchen` recorded; after the moves to `Library` and to `Study`,
the end room, the report gives 2 steps and the path `Library`, `Study`, without `Kitchen`. -/
theorem report_includes_start_counterexample :
    startGame 0 = some scenarioStart ∧
    (scenarioRooms scenarioStart.currentRoom).name = "Kitchen" ∧
    (scenarioRooms scenarioStart.currentRoom).type = Types.START_ROOM ∧
    scenarioStart.steps = 0 ∧
    pathEntries scenarioStart.tmpFile ≠ [(scenarioRooms scenarioStart.currentRoom).name] ∧
    (gameLoop scenarioRooms scenarioStart [("Library\n", ""), ("Study\n", "")]).map
        (fun g => ((scenarioRooms g.currentRoom).type, g.steps, pathEntries g.tmpFile,
          finalReport g))
      = some (Types.END_ROOM, 2, ["Library", "Study"],
          "YOU HAVE FOUND THE END ROOM. CONGRATULATIONS!\nYOU TOOK 2 STEPS. YOUR PATH TO VICTORY WAS:\nLibrary\nStudy\n") ∧
    (gameLoop scenarioRooms scenarioStart [("Library\n", ""), ("Study\n", "")]).map
        (fun g => pathEntries g.tmpFile)
      ≠ some ["Kitchen", "Library", "Study"] := by
  refine ⟨by decide, by decide, by decide, by decide, by decide, by decide, by decide⟩

/-- C15, amended: the game starts with 0 steps and an empty recorded path (the name of the
start room is not recorded).  Take any lines typed from the start room, each of them typed in
a room that is not the end room, and each either ignored (`time`, or not a connection of the
room the player is in) or a valid move (a connection of the room the player is in, not
`time`; the game enters the first room of the array with this name), such that the last of the
`k` rooms entered is the end room (every run of the game loop that ends in the end room is of
this kind, `Played_of_gameLoop`).  Then the game loop returns there, and the final report
gives the step count `k` and a path made of the names of the `k` rooms entered, in order, one
per line. -/
theorem report_after_valid_moves (rooms : Rooms) (startingIndex : Int) (g0 : Game)
    (path : List (Fin NUM_OF_ROOMS)) (inputs : List (String × String))
    (hstart : startGame startingIndex = some g0)
    (hplayed : Played rooms g0.currentRoom inputs path)
    (hend : (rooms (path.getLastD g0.currentRoom)).type = Types.END_ROOM) :
    g0.steps = 0 ∧ pathEntries g0.tmpFile = [] ∧
    ∃ g : Game, gameLoop rooms g0 inputs = some g ∧
      g.currentRoom = path.getLastD g0.currentRoom ∧
      types (rooms g.currentRoom).type = "END_ROOM" ∧ g.steps = path.length ∧
      pathEntries g.tmpFile = path.map (fun r => (rooms r).name) ∧
      finalReport g = "YOU HAVE FOUND THE END ROOM. CONGRATULATIONS!"
        ++ "\nYOU TOOK " ++ toString path.length ++ " STEPS. YOUR PATH TO VICTORY WAS:\n"
        ++ recordedText (path.map fun r => (rooms r).name) := by
  obtain ⟨_, hs0, hf0⟩ := Recorded_start startingIndex g0 hstart
  obtain ⟨g, hrun, hroom, hsteps, hfile⟩ :=
    gameLoop_played rooms g0.currentRoom inputs path hplayed g0 rfl
  rw [hs0, Nat.zero_add] at hsteps
  rw [hf0, String.empty_append] at hfile
  have hentries : pathEntries g.tmpFile = path.map (fun r => (rooms r).name) := by
    rw [hfile]
    exact pathEntries_recordedText _ (Played_names_plain rooms g0.currentRoom inputs path hplayed)
  refine ⟨hs0, by rw [hf0]; rfl, g, hrun, hroom, ?_, hsteps, hentries, ?_⟩
  · rw [types_eq_END_ROOM, hroom]
    exact hend
  · unfold finalReport
    rw [PrintPlayerPath_eq, hsteps, hfile]

theorem report_after_valid_moves_witness :
    (startGame 0 = some scenarioStart ∧
      Played scenarioRooms scenarioStart.currentRoom [("Library\n", ""), ("Study\n", "")]
        [2, 6] ∧
      (scenarioRooms (([2, 6] : List (Fin NUM_OF_ROOMS)).getLastD
        scenarioStart.currentRoom)).type = Types.END_ROOM ∧
      scenarioStart.steps = 0 ∧ pathEntries scenarioStart.tmpFile = [] ∧
      ∃ g : Game, gameLoop scenarioRooms scenarioStart [("Library\n", ""), ("Study\n", "")]
          = some g ∧
        g.currentRoom = ([2, 6] : List (Fin NUM_OF_ROOMS)).getLastD scenarioStart.currentRoom ∧
        types (scenarioRooms g.currentRoom).type = "END_ROOM" ∧
        g.steps = ([2, 6] : List (Fin NUM_OF_ROOMS)).length ∧
        pathEntries g.tmpFile
          = ([2, 6] : List (Fin NUM_OF_ROOMS)).map (fun r => (scenarioRooms r).name) ∧
        finalReport g = "YOU HAVE FOUND THE END ROOM. CONGRATULATIONS!"
          ++ "\nYOU TOOK " ++ toString ([2, 6] : List (Fin NUM_OF_ROOMS)).length
          ++ " STEPS. YOUR PATH TO VICTORY WAS:\n"
          ++ recordedText (([2, 6] : List (Fin NUM_OF_ROOMS)).map fun r =>
              (scenarioRooms r).name)) ∧
    (twinRooms 2).name = (twinRooms 5).name ∧
    (startGame 0 = some scenarioStart ∧
      Played twinRooms scenarioStart.currentRoom
        [("time\n", "1:03pm"), ("Cellar\n", ""), ("Library\n", ""), ("Study\n", "")] [2, 6] ∧
      (twinRooms (([2, 6] : List (Fin NUM_OF_ROOMS)).getLastD
        scenarioStart.currentRoom)).type = Types.END_ROOM ∧
      scenarioStart.steps = 0 ∧ pathEntries scenarioStart.tmpFile = [] ∧
      ∃ g : Game, gameLoop twinRooms scenarioStart
          [("time\n", "1:03pm"), ("Cellar\n", ""), ("Library\n", ""), ("Study\n", "")]
          = some g ∧
        g.currentRoom = ([2, 6] : List (Fin NUM_OF_ROOMS)).getLastD scenarioStart.currentRoom ∧
        types (twinRooms g.currentRoom).type = "END_ROOM" ∧
        g.steps = ([2, 6] : List (Fin NUM_OF_ROOMS)).length ∧
        pathEntries g.tmpFile
          = ([2, 6] : List (Fin NUM_OF_ROOMS)).map (fun r => (twinRooms r).name) ∧
        finalReport g = "YOU HAVE FOUND THE END ROOM. CONGRATULATIONS!"
          ++ "\nYOU TOOK " ++ toString ([2, 6] : List (Fin NUM_OF_ROOMS)).length
          ++ " STEPS. YOUR PATH TO VICTORY WAS:\n"
          ++ recordedText (([2, 6] : List (Fin NUM_OF_ROOMS)).map fun r =>
              (twinRooms r).name)) :=
  ⟨⟨by decide,
      Played.moved _ 2 _ _ _ _ (by decide) (by decide) (by decide) (by decide) (by decide)
        (Played.moved _ 6 _ _ _ _ (by decide) (by decide) (by decide) (by decide) (by decide)
          (Played.done _)),
      by decide,
      report_after_valid_moves scenarioRooms 0 scenarioStart [2, 6]
        [("Library\n", ""), ("Study\n", "")] (by decide)
        (Played.moved _ 2 _ _ _ _ (by decide) (by decide) (by decide) (by decide) (by decide)
          (Played.moved _ 6 _ _ _ _ (by decide) (by decide) (by decide) (by decide) (by decide)
            (Played.done _)))
        (by decide)⟩,
    by decide,
    ⟨by decide,
      Played.ignored _ _ _ _ _ (by decide) (Or.inl (by decide))
        (Played.ignored _ _ _ _ _ (by decide) (Or.inr (by decide))
          (Played.moved _ 2 _ _ _ _ (by decide) (by decide) (by decide) (by decide) (by decide)
            (Played.moved _ 6 _ _ _ _ (by decide) (by decide) (by decide) (by decide)
              (by decide) (Played.done _)))),
      by decide,
      report_after_valid_moves twinRooms 0 scenarioStart [2, 6]
        [("time\n", "1:03pm"), ("Cellar\n", ""), ("Library\n", ""), ("Study\n", "")]
        (by decide)
        (Played.ignored _ _ _ _ _ (by decide) (Or.inl (by decide))
          (Played.ignored _ _ _ _ _ (by decide) (Or.inr (by decide))
            (Played.moved _ 2 _ _ _ _ (by decide) (by decide) (by decide) (by decide)
              (by decide)
              (Played.moved _ 6 _ _ _ _ (by decide) (by decide) (by decide) (by decide)
                (by decide) (Played.done _)))))
        (by decide)⟩⟩

/-! ## `DisplayRoom` -/

theorem intercalate_go_append (x s : String) (rest : List String) : ∀ acc : String,
    String.intercalate.go (x ++ acc) s rest = x ++ String.intercalate.go acc s rest := by
  induction rest with
  | nil => intro acc; rfl
  | cons a rest ih =>
    intro acc
    simp only [String.intercalate.go]
    rw [← ih]
    simp only [String.append_assoc]

theorem intercalate_cons_cons (s a b : String) (rest : List String) :
    s.intercalate (a :: b :: rest) = a ++ s ++ s.intercalate (b :: rest) := by
  show String.intercalate.go a s (b :: rest) = a ++ s ++ String.intercalate.go b s rest
  simp only [String.intercalate.go]
  rw [intercalate_go_append]

theorem foldl_separator (sep last : String) (init : List String) : ∀ acc : String,
    init.foldl (fun out c => out ++ c ++ sep) acc ++ last
      = acc ++ sep.intercalate (init ++ [last]) := by
  induction init with
  | nil => intro acc; rfl
  | cons c init ih =>
    intro acc
    rw [List.foldl_cons, ih]
    cases hrest : init ++ [last] with
    | nil => simp at hrest
    | cons b rest =>
      rw [List.cons_append, hrest, intercalate_cons_cons]
      simp only [String.append_assoc]

theorem map_connectionAt (room : Room) (n : Nat) (hn : n ≤ MAX_CONNECTIONS) :
    (List.range n).map (connectionAt room) = (List.ofFn room.connections).take n := by
  apply List.ext_getElem
  · simp only [List.length_map, List.length_range, List.length_take, List.length_ofFn]
    omega
  · intro i h1 h2
    have hi : i < n := by simpa using h1
    have hlen : i < (List.ofFn room.connections).length := by
      rw [List.length_ofFn]
      omega
    rw [List.getElem_map, List.getElem_range, List.getElem_take]
    unfold connectionAt
    exact List.getD_eq_getElem _ _ hlen

/-- C19: for every room with `k` connections, `1 ≤ k` (and `k` within the array), `DisplayRoom`
prints `CURRENT ROOM: ` and the name of the room on a line, then `POSSIBLE CONNECTIONS: `, the
`k` names of the connections in stored order with `, ` between them, a period and a newline. -/
theorem DisplayRoom_output (room : Room) (h1 : 1 ≤ room.numConnections)
    (h6 : room.numConnections ≤ MAX_CONNECTIONS) :
    DisplayRoom room = "CURRENT ROOM: " ++ room.name ++ "\n" ++ "POSSIBLE CONNECTIONS: "
      ++ ", ".intercalate room.conns ++ ".\n" := by
  obtain ⟨m, hm⟩ : ∃ m, room.numConnections = m + 1 := ⟨room.numConnections - 1, by omega⟩
  have hM : MAX_CONNECTIONS = 6 := rfl
  have hlen : m < (List.ofFn room.connections).length := by
    rw [List.length_ofFn]
    omega
  have hconns : room.conns
      = (List.ofFn room.connections).take m ++ [(List.ofFn room.connections)[m]] := by
    unfold Room.conns
    rw [hm, List.take_succ, List.getElem?_eq_getElem hlen]
    rfl
  have hlast : connectionAt room m = (List.ofFn room.connections)[m] :=
    List.getD_eq_getElem _ _ hlen
  have hfold : (List.range m).foldl (fun out i => out ++ connectionAt room i ++ ", ") ""
      = ((List.ofFn room.connections).take m).foldl (fun out c => out ++ c ++ ", ") "" := by
    rw [← map_connectionAt room m (by omega), List.foldl_map]
  unfold DisplayRoom
  rw [hm, Nat.add_sub_cancel, hfold, hlast, hconns]
  have hsep := foldl_separator ", " (List.ofFn room.connections)[m]
    ((List.ofFn room.connections).take m) ""
  rw [String.empty_append] at hsep
  rw [← hsep]
  simp only [String.append_assoc]

theorem DisplayRoom_output_witness :
    1 ≤ (scenarioRooms 0).numConnections ∧ (scenarioRooms 0).numConnections ≤ MAX_CONNECTIONS ∧
    DisplayRoom (scenarioRooms 0) = "CURRENT ROOM: " ++ (scenarioRooms 0).name ++ "\n"
      ++ "POSSIBLE CONNECTIONS: " ++ ", ".intercalate (scenarioRooms 0).conns ++ ".\n" :=
  ⟨by decide, by decide, DisplayRoom_output (scenarioRooms 0) (by decide) (by decide)⟩

/-! ## `GetMostRecentDir` -/

/-- What the loop of `GetMostRecentDir` leaves in `dirName` and `mostRecentTime`: either no
entry that passes the test is more recent than `mostRecentTime` was, and both are as they
were; or they are the name and the time of an entry that passes the test, more recent than
all such entries before it and at least as recent as all such entries after it. -/
theorem GetMostRecentDir_loop_spec (listing : List DirEntry) : ∀ (dirName : String) (t : Int),
    ((∀ x ∈ listing, GetMostRecentDir.isRoomsDir x = true → x.st_mtime ≤ t) ∧
      GetMostRecentDir.loop listing dirName t = (dirName, t)) ∨
    ∃ (pre : List DirEntry) (e : DirEntry) (post : List DirEntry),
      listing = pre ++ e :: post ∧ GetMostRecentDir.isRoomsDir e = true ∧ t < e.st_mtime ∧
      GetMostRecentDir.loop listing dirName t = (e.d_name, e.st_mtime) ∧
      (∀ x ∈ pre, GetMostRecentDir.isRoomsDir x = true → x.st_mtime < e.st_mtime) ∧
      (∀ x ∈ post, GetMostRecentDir.isRoomsDir x = true → x.st_mtime ≤ e.st_mtime) := by
  induction listing with
  | nil =>
    intro dirName t
    exact Or.inl ⟨by simp, rfl⟩
  | cons e1 listing ih =>
    intro dirName t
    by_cases hm : GetMostRecentDir.isRoomsDir e1 = true ∧ e1.st_mtime > t
    · have hloop : GetMostRecentDir.loop (e1 :: listing) dirName t
          = GetMostRecentDir.loop listing e1.d_name e1.st_mtime := by
        simp only [GetMostRecentDir.loop, hm.1, hm.2, if_true]
      right
      rcases ih e1.d_name e1.st_mtime with ⟨hle, heq⟩ | ⟨pre, e, post, hl, he, hlt, heq, hpre, hpost⟩
      · exact ⟨[], e1, listing, rfl, hm.1, hm.2, hloop.trans heq, by simp, hle⟩
      · refine ⟨e1 :: pre, e, post, by rw [hl]; rfl, he, by omega, hloop.trans heq, ?_, hpost⟩
        intro x hx hxm
        rcases List.mem_cons.mp hx with h | h
        · rw [h]; exact hlt
        · exact hpre x h hxm
    · have hloop : GetMostRecentDir.loop (e1 :: listing) dirName t
          = GetMostRecentDir.loop listing dirName t := by
        simp only [GetMostRecentDir.loop]
        split
        · next h1 =>
          have : ¬ e1.st_mtime > t := fun h2 => hm ⟨h1, h2⟩
          rw [if_neg this]
        · rfl
      have he1 : GetMostRecentDir.isRoomsDir e1 = true → e1.st_mtime ≤ t := by
        intro h1
        by_contra h2
        exact hm ⟨h1, by omega⟩
      rcases ih dirName t with ⟨hle, heq⟩ | ⟨pre, e, post, hl, he, hlt, heq, hpre, hpost⟩
      · left
        refine ⟨?_, hloop.trans heq⟩
        intro x hx hxm
        rcases List.mem_cons.mp hx with h | h
        · rw [h]; exact he1 (h ▸ hxm)
        · exact hle x h hxm
      · right
        refine ⟨e1 :: pre, e, post, by rw [hl]; rfl, he, hlt, hloop.trans heq, ?_, hpost⟩
        intro x hx hxm
        rcases List.mem_cons.mp hx with h | h
        · have := he1 (h ▸ hxm)
          rw [h]
          omega
        · exact hpre x h hxm

theorem d_name_ne_empty (e : DirEntry) (h : GetMostRecentDir.isRoomsDir e = true) :
    e.d_name.length ≠ 0 := by
  intro hlen
  have hdata : e.d_name.data = [] := List.length_eq_zero.mp hlen
  unfold GetMostRecentDir.isRoomsDir at h
  rw [hdata] at h
  simp [strstr] at h

/-- What `GetMostRecentDir` does on a listing in which some entry that passes its test has a
modification time after the epoch: it selects the entry that passes the test with the
greatest modification time, the first one listed when several share that time. -/
theorem GetMostRecentDir_selects (listing : List DirEntry) (e0 : DirEntry) (h0 : e0 ∈ listing)
    (hm0 : GetMostRecentDir.isRoomsDir e0 = true) (ht0 : 0 < e0.st_mtime) :
    ∃ (pre : List DirEntry) (e : DirEntry) (post : List DirEntry),
      listing = pre ++ e :: post ∧ GetMostRecentDir.isRoomsDir e = true ∧
      GetMostRecentDir "" listing = some e.d_name ∧
      (∀ x ∈ pre, GetMostRecentDir.isRoomsDir x = true → x.st_mtime < e.st_mtime) ∧
      (∀ x ∈ post, GetMostRecentDir.isRoomsDir x = true → x.st_mtime ≤ e.st_mtime) := by
  rcases GetMostRecentDir_loop_spec listing "" 0 with
    ⟨hle, _⟩ | ⟨pre, e, post, hl, he, _, heq, hpre, hpost⟩
  · have := hle e0 h0 hm0
    omega
  · refine ⟨pre, e, post, hl, he, ?_, hpre, hpost⟩
    unfold GetMostRecentDir
    rw [heq]
    simp only [d_name_ne_empty e he, if_false]

/-- What `GetMostRecentDir` selects is the name of an entry that passes its test: a
directory whose name holds `rooms.` somewhere. -/
theorem GetMostRecentDir_some (listing : List DirEntry) (name : String)
    (h : GetMostRecentDir "" listing = some name) :
    ∃ e ∈ listing, e.d_name = name ∧ e.isDir = true ∧
      strstr e.d_name.data "rooms.".data = true := by
  unfold GetMostRecentDir at h
  rcases GetMostRecentDir_loop_spec listing "" 0 with
    ⟨_, heq⟩ | ⟨pre, e, post, hl, he, _, heq, _, _⟩
  · rw [heq] at h
    simp at h
  · rw [heq] at h
    simp only [d_name_ne_empty e he, if_false, Option.some.injEq] at h
    have hmem : e ∈ listing := by rw [hl]; simp
    unfold GetMostRecentDir.isRoomsDir at he
    rw [Bool.and_eq_true] at he
    exact ⟨e, hmem, h, he.1, he.2⟩

/-- C17 fails on the code: the listing holds one rooms directory, `rooms.100`, whose
modification time is 0 (the epoch).  The loop compares with `mostRecentTime`, which starts at
0, by `>`, so it never selects the directory, and `GetMostRecentDir` ends the program with
the message that there is no rooms directory.  With the modification time 1 the same
directory is selected. -/
theorem GetMostRecentDir_epoch_directory :
    GetMostRecentDir.isRoomsDir ⟨"rooms.100", true, 0⟩ = true ∧
    GetMostRecentDir "" [⟨"rooms.100", true, 0⟩] = none ∧
    GetMostRecentDir "" [⟨"notes.txt", false, 50⟩, ⟨"rooms.100", true, 0⟩,
      ⟨"rooms.200", true, -5⟩] = none ∧
    GetMostRecentDir "" [⟨"rooms.100", true, 1⟩] = some "rooms.100" := by
  refine ⟨by decide, by decide, by decide, by decide⟩

/-- C18 fails on the code: the test is `strstr`, which finds `rooms.` anywhere in the name.
The directory `backup.rooms.1` does not begin with `rooms.`; it is selected when it is the
only directory, and also in place of the directory `rooms.5`, which is older. -/
theorem GetMostRecentDir_name_inside :
    "rooms.".data.isPrefixOf "backup.rooms.1".data = false ∧
    GetMostRecentDir "" [⟨"backup.rooms.1", true, 100⟩] = some "backup.rooms.1" ∧
    GetMostRecentDir "" [⟨"rooms.5", true, 50⟩, ⟨"backup.rooms.1", true, 100⟩]
      = some "backup.rooms.1" := by
  refine ⟨by decide, by decide, by decide⟩

/-! ## The index of the chosen room is in range -/

/-- When every connection of the current room names a room, `GetSelectedRoomIndex` returns
`-1` or the index of a room of the given name. -/
theorem GetSelectedRoomIndex_cases (rooms : Rooms) (currentRoom : Room) (roomName : String)
    (hnames : ∀ c ∈ currentRoom.conns, ∃ j : Fin NUM_OF_ROOMS, (rooms j).name = c) :
    GetSelectedRoomIndex rooms currentRoom roomName = -1 ∨
    ∃ j : Fin NUM_OF_ROOMS, GetSelectedRoomIndex rooms currentRoom roomName = (j.val : Int) ∧
      (rooms j).name = roomName := by
  by_cases hmem : roomName ∈ currentRoom.conns
  · right
    rw [GetSelectedRoomIndex_of_mem rooms currentRoom roomName hmem]
    obtain ⟨j0, hj0⟩ := hnames roomName hmem
    cases hf : (List.finRange NUM_OF_ROOMS).find? fun i => decide ((rooms i).name = roomName) with
    | none =>
      rw [List.find?_eq_none] at hf
      have := hf j0 (List.mem_finRange j0)
      simp [hj0] at this
    | some j =>
      have hj := List.find?_some hf
      exact ⟨j, rfl, by simpa using hj⟩
  · exact Or.inl (GetSelectedRoomIndex_of_not_mem rooms currentRoom roomName hmem)

/-- C23: for every graph in which each connection of each room is the name of one of the 7
rooms, every state of the game (so every current room) and every input string,
`GetSelectedRoomIndex` returns `-1` or an index between 0 and 6 of a room whose name is the
input; it does not return `-5`, and a pass of the game loop does not reach `exit(1)`. -/
theorem selected_index_in_range (rooms : Rooms) (g : Game) (roomName line now : String)
    (hnames : ∀ i : Fin NUM_OF_ROOMS, ∀ c ∈ (rooms i).conns,
      ∃ j : Fin NUM_OF_ROOMS, (rooms j).name = c) :
    (GetSelectedRoomIndex rooms (rooms g.currentRoom) roomName = -1 ∨
      ∃ j : Fin NUM_OF_ROOMS,
        GetSelectedRoomIndex rooms (rooms g.currentRoom) roomName = (j.val : Int) ∧
        0 ≤ (j.val : Int) ∧ (j.val : Int) ≤ 6 ∧ (rooms j).name = roomName) ∧
    GetSelectedRoomIndex rooms (rooms g.currentRoom) roomName ≠ -5 ∧
    gameLoopBody rooms g line now ≠ none := by
  have hcases : ∀ (c : Fin NUM_OF_ROOMS) (s : String),
      GetSelectedRoomIndex rooms (rooms c) s = -1 ∨
      ∃ j : Fin NUM_OF_ROOMS, GetSelectedRoomIndex rooms (rooms c) s = (j.val : Int) ∧
        0 ≤ (j.val : Int) ∧ (j.val : Int) ≤ 6 ∧ (rooms j).name = s := by
    intro c s
    rcases GetSelectedRoomIndex_cases rooms (rooms c) s (hnames c) with h | ⟨j, hj, hname⟩
    · exact Or.inl h
    · have hj6 : j.val < 7 := j.isLt
      exact Or.inr ⟨j, hj, by omega, by omega, hname⟩
  refine ⟨hcases g.currentRoom roomName, ?_, ?_⟩
  · rcases hcases g.currentRoom roomName with h | ⟨j, hj, h0, _, _⟩
    · rw [h]; decide
    · rw [hj]; omega
  · obtain ⟨h1, _, _, _⟩ := rearm_fields g
    unfold gameLoopBody processChoice
    split
    · simp
    · simp only [h1]
      rcases hcases g.currentRoom (userChoice line) with h | ⟨j, hj, h0, h6, _⟩
      · simp [h]
      · have hne : ¬ ((j.val : Int) = -1) := by omega
        have hrange : ¬ ((j.val : Int) > 6 ∨ (j.val : Int) < -1) := by omega
        simp only [hj, hne, hrange, if_false]
        simp

theorem selected_index_in_range_witness :
    (∀ i : Fin NUM_OF_ROOMS, ∀ c ∈ (scenarioRooms i).conns,
      ∃ j : Fin NUM_OF_ROOMS, (scenarioRooms j).name = c) ∧
    (GetSelectedRoomIndex scenarioRooms (scenarioRooms scenarioStart.currentRoom) "Library" = -1 ∨
      ∃ j : Fin NUM_OF_ROOMS,
        GetSelectedRoomIndex scenarioRooms (scenarioRooms scenarioStart.currentRoom) "Library"
          = (j.val : Int) ∧
        0 ≤ (j.val : Int) ∧ (j.val : Int) ≤ 6 ∧ (scenarioRooms j).name = "Library") ∧
    GetSelectedRoomIndex scenarioRooms (scenarioRooms scenarioStart.currentRoom) "Library" ≠ -5 ∧
    gameLoopBody scenarioRooms scenarioStart "Library\n" "" ≠ none :=
  ⟨by decide,
    selected_index_in_range scenarioRooms scenarioStart "Library" "Library\n" "" (by decide)⟩

/-! ## The lock and the waiting task -/

theorem rearm_armed (g : Game)
    (h : (g.mutexLocked = true ∧ g.tasks = 1) ∨ (g.mutexLocked = false ∧ g.tasks = 0)) :
    (rearm g).mutexLocked = true ∧ (rearm g).tasks = 1 := by
  unfold rearm
  rcases h with ⟨h1, h2⟩ | ⟨h1, h2⟩
  · rw [if_pos h1]
    exact ⟨h1, h2⟩
  · rw [if_neg (by rw [h1]; decide)]
    exact ⟨rfl, by show g.tasks + 1 = 1; rw [h2]⟩

/-- What the rest of a pass does to the lock, the waiting tasks and `currentTime.txt`, from a
state in which `main` holds the lock and one task waits: the choice `time` releases the lock
and lets the task run and be joined; any other choice leaves all three as they were. -/
theorem processChoice_tasks (rooms : Rooms) (g g1 : Game) (line now : String)
    (harmed : g.mutexLocked = true ∧ g.tasks = 1)
    (hstep : processChoice rooms g line now = some g1) :
    (userChoice line = "time" →
      g1.mutexLocked = false ∧ g1.tasks = 0 ∧ g1.timeFile = now) ∧
    (userChoice line ≠ "time" →
      g1.mutexLocked = true ∧ g1.tasks = 1 ∧ g1.timeFile = g.timeFile) := by
  obtain ⟨hl, ht⟩ := harmed
  unfold processChoice at hstep
  split at hstep
  · next htime =>
    simp only [Option.some.injEq] at hstep
    subst hstep
    refine ⟨fun _ => ?_, fun h => absurd htime h⟩
    unfold timeQuery
    rw [if_neg (by omega)]
    exact ⟨rfl, by show g.tasks - 1 = 0; omega, rfl⟩
  · next htime =>
    refine ⟨fun h => absurd h htime, fun _ => ?_⟩
    simp only at hstep
    split at hstep
    · simp only [Option.some.injEq] at hstep
      subst hstep
      exact ⟨hl, ht, rfl⟩
    · split at hstep
      · simp at hstep
      · simp only [Option.some.injEq] at hstep
        subst hstep
        exact ⟨hl, ht, rfl⟩

theorem between_gameLoop (rooms : Rooms) (inputs : List (String × String)) :
    ∀ g g1 : Game,
    ((g.mutexLocked = true ∧ g.tasks = 1) ∨ (g.mutexLocked = false ∧ g.tasks = 0)) →
    gameLoop rooms g inputs = some g1 →
    ((g1.mutexLocked = true ∧ g1.tasks = 1) ∨ (g1.mutexLocked = false ∧ g1.tasks = 0)) ∧
    (types (rooms g1.currentRoom).type ≠ "END_ROOM" →
      g1.mutexLocked = true ∧ g1.tasks = 1) := by
  induction inputs with
  | nil =>
    intro g g1 h hrun
    unfold gameLoop at hrun
    split at hrun
    · next hend =>
      simp only [Option.some.injEq] at hrun
      subst hrun
      exact ⟨h, fun hne => absurd hend hne⟩
    · simp only [Option.some.injEq] at hrun
      subst hrun
      exact ⟨Or.inl (rearm_armed g h), fun _ => rearm_armed g h⟩
  | cons input inputs ih =>
    intro g g1 h hrun
    obtain ⟨line, now⟩ := input
    unfold gameLoop at hrun
    split at hrun
    · next hend =>
      simp only [Option.some.injEq] at hrun
      subst hrun
      exact ⟨h, fun hne => absurd hend hne⟩
    · split at hrun
      · simp at hrun
      · next g2 hbody =>
        have harmed := rearm_armed g h
        obtain ⟨htime, hother⟩ := processChoice_tasks rooms (rearm g) g2 line now harmed hbody
        have hbetween : (g2.mutexLocked = true ∧ g2.tasks = 1) ∨
            (g2.mutexLocked = false ∧ g2.tasks = 0) := by
          by_cases hc : userChoice line = "time"
          · exact Or.inr ⟨(htime hc).1, (htime hc).2.1⟩
          · exact Or.inl ⟨(hother hc).1, (hother hc).2.1⟩
        exact ih g2 g1 hbetween hrun

theorem startGame_armed (startingIndex : Int) (g0 : Game)
    (h : startGame startingIndex = some g0) : g0.mutexLocked = true ∧ g0.tasks = 1 := by
  unfold startGame at h
  split at h
  · simp at h
  · simp only [Option.some.injEq] at h
    subst h
    exact ⟨rfl, rfl⟩

/-- C22: with the lock and the number of created and not joined `WriteTime` threads in the
state of the game.  At every prompt of a session `main` holds the lock and exactly one task
exists; it has not run, so `currentTime.txt` is as it was unless the choice is `time`, in
which case the task runs and is joined, and none is left.  The first pass of the loop creates
no task; the pass after a choice creates one exactly when that choice was `time`.  So there
is never more than one task. -/
theorem one_waiting_task (rooms : Rooms) (startingIndex : Int) (g0 g g1 : Game)
    (inputs : List (String × String)) (line now : String)
    (hstart : startGame startingIndex = some g0)
    (hrun : gameLoop rooms g0 inputs = some g)
    (hprompt : types (rooms g.currentRoom).type ≠ "END_ROOM")
    (hstep : processChoice rooms g line now = some g1) :
    (g.mutexLocked = true ∧ g.tasks = 1) ∧
    rearm g0 = g0 ∧
    g1.tasks ≤ 1 ∧
    (userChoice line = "time" → g1.mutexLocked = false ∧ g1.tasks = 0 ∧ g1.timeFile = now) ∧
    (userChoice line ≠ "time" →
      g1.mutexLocked = true ∧ g1.tasks = 1 ∧ g1.timeFile = g.timeFile) ∧
    ((rearm g1).mutexLocked = true ∧ (rearm g1).tasks = 1) ∧
    ((rearm g1).tasks = g1.tasks + 1 ↔ userChoice line = "time") := by
  have h0 := startGame_armed startingIndex g0 hstart
  have harmed := (between_gameLoop rooms inputs g0 g (Or.inl h0) hrun).2 hprompt
  obtain ⟨htime, hother⟩ := processChoice_tasks rooms g g1 line now harmed hstep
  have hrearm0 : rearm g0 = g0 := by
    unfold rearm
    rw [if_pos h0.1]
  by_cases hc : userChoice line = "time"
  · obtain ⟨a1, a2, a3⟩ := htime hc
    have hnext := rearm_armed g1 (Or.inr ⟨a1, a2⟩)
    refine ⟨harmed, hrearm0, by omega, htime, hother, hnext, ?_⟩
    exact ⟨fun _ => hc, fun _ => by rw [hnext.2, a2]⟩
  · obtain ⟨a1, a2, a3⟩ := hother hc
    have hnext := rearm_armed g1 (Or.inl ⟨a1, a2⟩)
    refine ⟨harmed, hrearm0, by omega, htime, hother, hnext, ?_⟩
    constructor
    · intro h
      rw [hnext.2, a2] at h
      omega
    · intro h
      exact absurd h hc

theorem one_waiting_task_witness :
    startGame 0 = some scenarioStart ∧
    gameLoop scenarioRooms scenarioStart [("Library\n", "")]
      = some { scenarioStart with
          currentRoomIndex := 2, currentRoom := 2, steps := 1, tmpFile := "Library\n" } ∧
    types (scenarioRooms 2).type ≠ "END_ROOM" ∧
    processChoice scenarioRooms
        { scenarioStart with
          currentRoomIndex := 2, currentRoom := 2, steps := 1, tmpFile := "Library\n" }
        "time\n" "1:03pm"
      = some { scenarioStart with
          currentRoomIndex := 2, currentRoom := 2, steps := 1, tmpFile := "Library\n",
          mutexLocked := false, tasks := 0, timeFile := "1:03pm" } ∧
    (rearm { scenarioStart with
          currentRoomIndex := 2, currentRoom := 2, steps := 1, tmpFile := "Library\n",
          mutexLocked := false, tasks := 0, timeFile := "1:03pm" }).tasks = 1 :=
  ⟨by decide, by decide, by decide, by decide,
    (one_waiting_task scenarioRooms 0 scenarioStart
      { scenarioStart with
          currentRoomIndex := 2, currentRoom := 2, steps := 1, tmpFile := "Library\n" }
      { scenarioStart with
          currentRoomIndex := 2, currentRoom := 2, steps := 1, tmpFile := "Library\n",
          mutexLocked := false, tasks := 0, timeFile := "1:03pm" }
      [("Library\n", "")] "time\n" "1:03pm" (by decide) (by decide) (by decide)
      (by decide)).2.2.2.2.2.1.2⟩

end Adventure
